import Mathlib

/-!
# Verification of the opencode-python-docs core logic

A shallow embedding of the documentation-lookup plugin's core modules
(`search-index.ts`, `doc-service.ts`, `cache.ts`) together with theorems
settling the specification claims about them.

Modelling conventions:
* JS strings are modelled as Lean `String`s (sequences of unicode scalars);
  `toLowerCase` is modelled charwise (`strToLower`).
* `Map` objects and plain objects used as dictionaries are modelled as
  insertion-ordered association lists: updating an existing key keeps its
  position, a new key is appended at the end — exactly the JS iteration order.
* `Array.prototype.sort` with the comparator `(a, b) => b.score - a.score`
  (a consistent comparator) is stable by the ECMAScript spec, so its result
  is the unique stable descending reordering; it is modelled by a stable
  insertion sort (`sortByKeyDesc`).
* Clock reads (`Date.now()`) are threaded in explicitly; file mtimes and the
  current time are `Int` so that `now - mtime < ttl` carries JS semantics.
* Network fetches and the HTML→Markdown converter (whose source file is not
  part of the core modules) are oracles supplied in an `Env` record;
  fallible operations return `Except`.
-/

namespace PyDocs

/-! ## String helpers (charwise models of the JS string operations) -/

/-- Model of `String.prototype.toLowerCase`, applied charwise. -/
def strToLower (s : String) : String :=
  ⟨s.data.map Char.toLower⟩

/-- Model of `String.prototype.includes`: `sub` occurs as a contiguous
substring of `s`. -/
def strContains (s sub : String) : Bool :=
  (List.range (s.data.length + 1)).any (fun i => sub.data.isPrefixOf (s.data.drop i))

/-- Model of `String.prototype.endsWith`. -/
def strEndsWith (s suffix : String) : Bool :=
  suffix.data.isSuffixOf s.data

/-- Model of `str.slice(0, -n)`: drop the last `n` characters. -/
def strDropRight (s : String) (n : Nat) : String :=
  ⟨s.data.take (s.data.length - n)⟩

/-! ## Data model (`types.ts`) -/

/-- A single documentation entry from the DevDocs index (`types.ts`). -/
structure DocEntry where
  name : String
  path : String
  type : String
deriving Repr, DecidableEq

/-- The full documentation index for a Python version (`types.ts`). -/
structure DocIndex where
  entries : List DocEntry
deriving Repr, DecidableEq

/-- An anchor point within a document (`types.ts`). -/
structure Anchor where
  name : String
  heading : String
  level : Nat
  startOffset : Nat
  endOffset : Nat
  parentAnchor : Option String
deriving Repr, DecidableEq

/-- Index of all anchors in a document (`types.ts`). -/
structure AnchorIndex where
  anchors : List Anchor
  totalLength : Nat
deriving Repr, DecidableEq

/-! ## Search index construction (`search-index.ts`) -/

/-- Mapping from a keyword to relevant documentation types and sample
entries (`search-index.ts`). -/
structure KeywordMapping where
  keyword : String
  types : List String
  sampleEntries : List String
  score : Nat
deriving Repr, DecidableEq

/-- Enhanced search index with keyword-to-types mappings (`search-index.ts`).
`generatedAt` records the clock value threaded in for `new Date()`. -/
structure SearchIndex where
  version : String
  generatedAt : Int
  totalEntries : Nat
  typeStats : List (String × Nat)
  keywordMappings : List KeywordMapping
deriving Repr, DecidableEq

/-- Result of type inference for a query (`search-index.ts`). The
confidence is a JS number; the values reachable here are rationals. -/
structure TypeInferenceResult where
  query : String
  inferredTypes : List String
  confidence : ℚ
  matchingKeywords : List String
  alternativeTypes : List String
deriving Repr, DecidableEq

/-- The separator class of `extractKeywords`' split regex
`[\s\-_.()<>,:]+`, with `\s` modelled by `Char.isWhitespace`. -/
def isSeparator (c : Char) : Bool :=
  c.isWhitespace || c ∈ ['-', '_', '.', '(', ')', '<', '>', ',', ':']

/-- Consume the `(\.\d+)*` part of the section-number regex: repeatedly
strip a dot followed by one or more digits.  The fuel argument makes the
recursion structural (each step consumes at least two characters, so
`l.length` fuel always suffices). -/
def eatDotGroupsFuel : Nat → List Char → List Char
  | 0, l => l
  | fuel + 1, l =>
    match l with
    | '.' :: c :: rest =>
      if c.isDigit then eatDotGroupsFuel fuel (List.dropWhile Char.isDigit rest) else l
    | _ => l

/-- Consume the `(\.\d+)*` part of the section-number regex. -/
def eatDotGroups (l : List Char) : List Char :=
  eatDotGroupsFuel l.length l

/-- Model of `replace(/^\d+(\.\d+)*\.?\s*/g, "")`: strip a leading run of
dot-separated integer groups, an optional trailing dot and trailing
whitespace.  (With the `^` anchor the global flag is inert.)  All the
regex pieces after `\d+` are optional/starred, so greedy matching needs no
backtracking and this direct parse is equivalent. -/
def stripSectionNumber (l : List Char) : List Char :=
  match List.span Char.isDigit l with
  | ([], _) => l
  | (_ :: _, rest) =>
    let rest2 := eatDotGroups rest
    let rest3 := match rest2 with
      | '.' :: r => r
      | r => r
    List.dropWhile Char.isWhitespace rest3

/-- The fixed stop-list of `extractKeywords`. -/
def stopWords : List String :=
  ["and", "the", "for", "with", "from", "using", "objects", "object"]

/-- Deduplicate preserving first occurrence: model of `[...new Set(ks)]`. -/
def dedupFirstSeen : List String → List String :=
  go []
where
  go (seen : List String) : List String → List String
    | [] => []
    | k :: rest => if seen.contains k then go seen rest else k :: go (k :: seen) rest

/-- Function `extractKeywords` from `search-index.ts`: lowercase, strip a leading
section number, split on separators, drop tokens of length ≤ 2 and
stop-words, deduplicate keeping first occurrences. -/
def extractKeywords (name : String) : List String :=
  let normalized := strToLower name
  let withoutNumbers : String := ⟨stripSectionNumber normalized.data⟩
  let keywords := ((withoutNumbers.data.splitOnP isSeparator).map (fun l => (⟨l⟩ : String)))
    |>.filter (fun k => decide (2 < k.length))
    |>.filter (fun k => !stopWords.contains k)
  dedupFirstSeen keywords

/-! ## Stable descending sort

`Array.prototype.sort((a, b) => b.k - a.k)` with a consistent comparator is
stable (ECMAScript), so its result is the unique stable descending
reordering; a stable insertion sort computes exactly that. -/

/-- Insert `x` into a descending-sorted list, after all strictly greater
keys and before equal ones (`x` originates earlier in the input). -/
def insertDesc (key : α → Nat) (x : α) : List α → List α
  | [] => [x]
  | y :: ys => if key y ≤ key x then x :: y :: ys else y :: insertDesc key x ys

/-- Stable sort by `key`, descending. -/
def sortByKeyDesc (key : α → Nat) : List α → List α
  | [] => []
  | x :: xs => insertDesc key x (sortByKeyDesc key xs)

/-! ## Insertion-ordered frequency maps -/

/-- An insertion-ordered `Map<string, number>` used as a counter. -/
abbrev FreqMap := List (String × Nat)

/-- Model of `m.set(k, (m.get(k) || 0) + 1)`: bump a counter, keeping the position
of an existing key and appending a new key at the end. -/
def bumpFreq (k : String) : FreqMap → FreqMap
  | [] => [(k, 1)]
  | (k', v) :: rest => if k' = k then (k', v + 1) :: rest else (k', v) :: bumpFreq k rest

/-- Model of `m.set(k, (m.get(k) || 0) + s)`: accumulate a score into a counter. -/
def bumpScore (k : String) (s : Nat) : FreqMap → FreqMap
  | [] => [(k, s)]
  | (k', v) :: rest => if k' = k then (k', v + s) :: rest else (k', v) :: bumpScore k s rest

/-- Function `calculateTypeStats` from `search-index.ts`: entries per type, keys in
first-seen order (JS object string-key iteration order). -/
def calculateTypeStats (index : DocIndex) : FreqMap :=
  index.entries.foldl (fun stats e => bumpFreq e.type stats) []

/-! ## `buildKeywordMappings` (`search-index.ts`) -/

/-- The sample string `"<name> (<type>)"` pushed for a keyword occurrence. -/
def sampleString (name ty : String) : String :=
  name ++ " (" ++ ty ++ ")"

/-- Joint state of `keywordTypeMap` and `keywordEntryMap`: both are keyed by
keyword and always populated together, so they are modelled as one
insertion-ordered association list keyword ↦ (type frequencies, samples). -/
abbrev KwState := List (String × FreqMap × List String)

/-- Process one keyword occurrence of one entry: bump the per-type counter
and record up to 3 sample strings. -/
def updateKeyword (name ty kw : String) : KwState → KwState
  | [] => [(kw, [(ty, 1)], [sampleString name ty])]
  | (k, tf, ss) :: rest =>
    if k = kw then
      (k, bumpFreq ty tf, if ss.length < 3 then ss ++ [sampleString name ty] else ss) :: rest
    else
      (k, tf, ss) :: updateKeyword name ty kw rest

/-- The accumulation loop of `buildKeywordMappings` over all entries. -/
def keywordState (entries : List DocEntry) : KwState :=
  entries.foldl
    (fun st e => (extractKeywords e.name).foldl (fun st kw => updateKeyword e.name e.type kw st) st)
    []

/-- Post-processing of one keyword's accumulated state: total score, and
the top types (sorted by count descending, kept when the count is ≥ 2 or
the keyword has exactly one type, at most 5). -/
def mappingOfState (k : String) (tf : FreqMap) (ss : List String) : Option KeywordMapping :=
  let totalFreq := tf.foldl (fun a b => a + b.2) 0
  let sortedTypes := (((sortByKeyDesc Prod.snd tf).filter
    (fun p => 2 ≤ p.2 || tf.length == 1)).take 5).map Prod.fst
  if 0 < sortedTypes.length then
    some { keyword := k, types := sortedTypes, sampleEntries := ss, score := totalFreq }
  else
    none

/-- Function `buildKeywordMappings` from `search-index.ts`. -/
def buildKeywordMappings (index : DocIndex) : List KeywordMapping :=
  let mappings := (keywordState index.entries).filterMap (fun x => mappingOfState x.1 x.2.1 x.2.2)
  sortByKeyDesc KeywordMapping.score mappings

/-- Function `createSearchIndex` from `search-index.ts`; `now` stands for the
`new Date()` read used for `generatedAt`. -/
def createSearchIndex (index : DocIndex) (version : String) (now : Int) : SearchIndex :=
  { version := version
    generatedAt := now
    totalEntries := index.entries.length
    typeStats := calculateTypeStats index
    keywordMappings := buildKeywordMappings index }

/-! ## `inferTypesForQuery` (`search-index.ts`) -/

/-- The mappings whose keyword is a substring of the lowercased query or a
member of the extracted query keywords. -/
def matchingMappingsFor (query : String) (searchIndex : SearchIndex) : List KeywordMapping :=
  searchIndex.keywordMappings.filter
    (fun m => strContains (strToLower query) m.keyword || (extractKeywords query).contains m.keyword)

/-- The `typeScores` accumulator: every matching mapping adds its score to
each of its types. -/
def typeScoresFor (query : String) (searchIndex : SearchIndex) : FreqMap :=
  (matchingMappingsFor query searchIndex).foldl
    (fun scores m => m.types.foldl (fun scores ty => bumpScore ty m.score scores) scores)
    []

/-- Function `inferTypesForQuery` from `search-index.ts`. -/
def inferTypesForQuery (query : String) (searchIndex : SearchIndex) : TypeInferenceResult :=
  let matchingMappings := matchingMappingsFor query searchIndex
  let matchingKeywords := matchingMappings.map KeywordMapping.keyword
  let sortedTypes := sortByKeyDesc Prod.snd (typeScoresFor query searchIndex)
  let inferredTypes := (sortedTypes.take 3).map Prod.fst
  let alternativeTypes := ((sortedTypes.drop 3).take 3).map Prod.fst
  let totalScore : Nat := sortedTypes.foldl (fun sum p => sum + p.2) 0
  let confidence : ℚ :=
    if 0 < matchingMappings.length then
      min 100 ((matchingMappings.length : ℚ) * 10 + (totalScore : ℚ) / 100)
    else 0
  { query := query
    inferredTypes := inferredTypes
    confidence := confidence
    matchingKeywords := matchingKeywords.take 5
    alternativeTypes := alternativeTypes }

/-! ## Configuration (`config.ts`) -/

namespace CONFIG

def indexTtlMs : Int := 24 * 60 * 60 * 1000

def docTtlMs : Int := 7 * 24 * 60 * 60 * 1000

def defaultLimit : Nat := 20

end CONFIG

/-! ## `search` (`doc-service.ts`) -/

/-- JS falsiness of an optional string: `undefined` and `""` are falsy. -/
def optStrFalsy : Option String → Bool
  | none => true
  | some s => s == ""

/-- The type condition `!t || entry.type.toLowerCase() === t`, with `t`
the already-lowercased requested type. -/
def typeMatches (t : Option String) (e : DocEntry) : Bool :=
  optStrFalsy t ||
    (match t with
     | none => false
     | some tv => strToLower e.type == tv)

/-- The loop body condition of `search`: name substring match and type
match, with `q` and `t` already lowercased. -/
def entryQualifies (q : String) (t : Option String) (e : DocEntry) : Bool :=
  strContains (strToLower e.name) q && typeMatches t e

/-- The scan loop of `search`: push qualifying entries in order, stop once
`maxResults` are collected. -/
def searchLoop (q : String) (t : Option String) (maxResults : Nat) :
    List DocEntry → List DocEntry → List DocEntry
  | [], results => results.reverse
  | e :: rest, results =>
    if maxResults ≤ results.length then results.reverse
    else if entryQualifies q t e then searchLoop q t maxResults rest (e :: results)
    else searchLoop q t maxResults rest results

/-- Function `search` from `doc-service.ts`. -/
def search (index : DocIndex) (query : String) (type : Option String) (limit : Option Nat) :
    List DocEntry :=
  search.go index (strToLower query) (type.map strToLower) (limit.getD CONFIG.defaultLimit)
where
  go (index : DocIndex) (q : String) (t : Option String) (maxResults : Nat) : List DocEntry :=
    searchLoop q t maxResults index.entries []

/-! ## `searchWithFallback` (`doc-service.ts`) -/

/-- The result record of `searchWithFallback`. -/
structure FallbackOutcome where
  results : List DocEntry
  fallbackUsed : Bool
  typeInference : Option TypeInferenceResult
deriving Repr, DecidableEq

/-- The combine loop of `searchWithFallback`: walk the concatenated
results, skip already-seen paths, push new ones and stop as soon as
`limit` entries are collected. -/
def combineLoop (lim : Nat) : List DocEntry → List String → List DocEntry → List DocEntry
  | [], _, acc => acc.reverse
  | e :: rest, seen, acc =>
    if seen.contains e.path then combineLoop lim rest seen acc
    else if lim ≤ acc.length + 1 then (e :: acc).reverse
    else combineLoop lim rest (e.path :: seen) (e :: acc)

/-- Function `searchWithFallback` from `doc-service.ts`. -/
def searchWithFallback (index : DocIndex) (searchIndex : SearchIndex) (query : String)
    (type : Option String) (limit : Option Nat) : FallbackOutcome :=
  let results := search index query type limit
  if 0 < results.length || optStrFalsy type then
    { results := results, fallbackUsed := false, typeInference := none }
  else
    let typeInference := inferTypesForQuery query searchIndex
    let resultsNoFilter := search index query none limit
    let halfLimit := (limit.getD CONFIG.defaultLimit + 1) / 2
    let resultsWithInferred := (typeInference.inferredTypes.take 2).foldl
      (fun acc inferredType => acc ++ search index query (some inferredType) (some halfLimit)) []
    let combinedResults :=
      combineLoop (limit.getD CONFIG.defaultLimit) (resultsWithInferred ++ resultsNoFilter) [] []
    { results := combinedResults, fallbackUsed := true, typeInference := some typeInference }

/-! ## Cache state model (`cache.ts`) -/

/-- A cached document payload as stored on disk.  `anchorIndex` is optional
to model payloads written before that field existed. -/
structure StoredDoc where
  markdown : String
  anchorIndex : Option AnchorIndex
  fetchedAt : Int
deriving Repr, DecidableEq

/-- A value held in one cache file (JSON blobs of the three shapes the
service stores). -/
inductive CacheValue where
  | idx (i : DocIndex)
  | sidx (s : SearchIndex)
  | doc (d : StoredDoc)
deriving Repr, DecidableEq

/-- One cache file: path, parsed content and mtime. -/
structure CacheEntry where
  path : String
  value : CacheValue
  mtime : Int
deriving Repr, DecidableEq

/-- The cache directory tree as a path-indexed store; a write shadows any
older entry for the same path. -/
abbrev CacheState := List CacheEntry

def findEntry (cache : CacheState) (path : String) : Option CacheEntry :=
  cache.find? (fun e => e.path == path)

/-- Function `isValid` from `cache.ts`: `Date.now() - statSync(path).mtimeMs < ttlMs`,
false when the file is absent. -/
def isValid (now : Int) (cache : CacheState) (path : String) (ttlMs : Int) : Bool :=
  match findEntry cache path with
  | some e => now - e.mtime < ttlMs
  | none => false

/-- Function `write` from `cache.ts`: serialize the value at the path (overwrite). -/
def writeCache (cache : CacheState) (path : String) (v : CacheValue) (now : Int) : CacheState :=
  { path := path, value := v, mtime := now } :: cache

/-- Model of `read<DocIndex>`: `null` on a missing file or a blob of another shape. -/
def readIdx (cache : CacheState) (path : String) : Option DocIndex :=
  match findEntry cache path with
  | some { value := .idx i, .. } => some i
  | _ => none

/-- Model of `read<SearchIndex>`. -/
def readSIdx (cache : CacheState) (path : String) : Option SearchIndex :=
  match findEntry cache path with
  | some { value := .sidx s, .. } => some s
  | _ => none

/-- Model of `read<CachedDoc>`. -/
def readDoc (cache : CacheState) (path : String) : Option StoredDoc :=
  match findEntry cache path with
  | some { value := .doc d, .. } => some d
  | _ => none

/-- Function `getIndexPath` from `cache.ts` (the cache root prefix is dropped from
the model: paths only need to be distinct keys). -/
def getIndexPath (version : String) : String :=
  "python-" ++ version ++ ".json"

/-- Modelled from the spec: the search-index cache key.  `doc-service.ts`
calls `cache.getSearchIndexPath(version)`, but no implementation of it is
present in the available sources; per the spec the search index "is itself
cached under the index TTL", i.e. under a deterministic per-version path
distinct from the doc-index path. -/
def getSearchIndexPath (version : String) : String :=
  "search-index-" ++ version ++ ".json"

/-- Function `getDocPath` from `cache.ts`; the SHA-1 content hash is modelled by the
identifier itself (deterministic and injective, which is all the spec
demands of it). -/
def getDocPath (version docPath : String) : String :=
  "docs/" ++ version ++ "/" ++ docPath ++ ".json"

/-! ## Document service orchestration (`doc-service.ts`) -/

/-- External collaborators of the doc service: the clock, the index source
(`fetch` + `JSON.parse`) and the document source composed with the
HTML→Markdown converter (whose module is outside the core sources; the
spec fixes its anchor contract: empty anchor list, `totalLength` = body
length). -/
structure Env where
  now : Int
  fetchIndex : String → Except String DocIndex
  fetchMarkdown : String → Except String String

/-- The anchor index produced by the converter, per the spec contract. -/
def convertedAnchorIndex (markdown : String) : AnchorIndex :=
  { anchors := [], totalLength := markdown.length }

/-- Function `getIndex` from `doc-service.ts`: cache-or-fetch under the index TTL. -/
def getIndex (env : Env) (cache : CacheState) (version : String) :
    Except String (DocIndex × CacheState) :=
  let indexPath := getIndexPath version
  let cached : Option DocIndex :=
    if isValid env.now cache indexPath CONFIG.indexTtlMs then readIdx cache indexPath else none
  match cached with
  | some i => .ok (i, cache)
  | none =>
    match env.fetchIndex version with
    | .error e => .error e
    | .ok index => .ok (index, writeCache cache indexPath (.idx index) env.now)

/-- Function `getSearchIndex` from `doc-service.ts`: cached search index when valid
and readable, otherwise rebuilt from `getIndex` and written back. -/
def getSearchIndex (env : Env) (cache : CacheState) (version : String) :
    Except String (SearchIndex × CacheState) :=
  let searchIndexPath := getSearchIndexPath version
  let cached : Option SearchIndex :=
    if isValid env.now cache searchIndexPath CONFIG.indexTtlMs then
      readSIdx cache searchIndexPath
    else none
  match cached with
  | some s => .ok (s, cache)
  | none =>
    match getIndex env cache version with
    | .error e => .error e
    | .ok (index, cache1) =>
      let searchIndex := createSearchIndex index version env.now
      .ok (searchIndex, writeCache cache1 searchIndexPath (.sidx searchIndex) env.now)

/-- The result of `getDoc`: the payload plus cache provenance and the
normalized path. -/
structure FetchedDoc where
  markdown : String
  anchorIndex : Option AnchorIndex
  fetchedAt : Int
  fromCache : Bool
  path : String
deriving Repr, DecidableEq

/-- The path normalization at the top of `getDoc`: strip a `.html` suffix. -/
def normalizePath (path : String) : String :=
  if strEndsWith path ".html" then strDropRight path 5 else path

/-- Function `getDoc` from `doc-service.ts`: strip a `.html` suffix, serve a valid
cached payload only when it carries an anchor index (`cached?.anchorIndex`
is truthy exactly when the field is present), otherwise fetch, convert,
persist and return fresh. -/
def getDoc (env : Env) (cache : CacheState) (version path : String) :
    Except String (FetchedDoc × CacheState) :=
  let normalizedPath := normalizePath path
  let docPath := getDocPath version normalizedPath
  let cachedHit : Option StoredDoc :=
    if isValid env.now cache docPath CONFIG.docTtlMs then
      match readDoc cache docPath with
      | some c => if c.anchorIndex.isSome then some c else none
      | none => none
    else none
  match cachedHit with
  | some c =>
    .ok ({ markdown := c.markdown, anchorIndex := c.anchorIndex, fetchedAt := c.fetchedAt,
           fromCache := true, path := normalizedPath }, cache)
  | none =>
    match env.fetchMarkdown normalizedPath with
    | .error e => .error e
    | .ok markdown =>
      let payload : StoredDoc :=
        { markdown := markdown, anchorIndex := some (convertedAnchorIndex markdown),
          fetchedAt := env.now }
      .ok ({ markdown := payload.markdown, anchorIndex := payload.anchorIndex,
             fetchedAt := payload.fetchedAt, fromCache := false, path := normalizedPath },
           writeCache cache docPath (.doc payload) env.now)

/-! ## Garbage collection (`cache.ts`)

The swept directory tree is modelled structurally: the cache root holds
files (with mtime), plus a `docs/<version>/` hierarchy.  `deletable` models
whether `unlinkSync` succeeds on the file; `listable` models whether
`readdirSync` succeeds on a directory. -/

/-- A file visible to the GC sweep. -/
structure GcFile where
  name : String
  mtime : Int
  deletable : Bool
deriving Repr, DecidableEq

/-- One `docs/<version>` directory. -/
structure VersionDir where
  name : String
  listable : Bool
  docs : List GcFile
deriving Repr, DecidableEq

/-- The directory tree swept by `runGarbageCollection`. -/
structure CacheFS where
  rootExists : Bool
  rootListable : Bool
  rootFiles : List GcFile
  docsDirExists : Bool
  docsListable : Bool
  versionDirs : List VersionDir
deriving Repr, DecidableEq

/-- The result record of `runGarbageCollection`. -/
structure GcStats where
  scanned : Nat
  deleted : Nat
  errors : Nat
deriving Repr, DecidableEq

/-- Validity of a listed file during the sweep, as `isValid` computes it. -/
def gcFileValid (now : Int) (f : GcFile) (ttlMs : Int) : Bool :=
  now - f.mtime < ttlMs

/-- Function `tryDelete` from `cache.ts`: count the file as scanned; delete it when
invalid, counting a failed `unlinkSync` as an error.  Returns the updated
stats and whether the file survives on disk. -/
def tryDelete (now ttlMs : Int) (st : GcStats) (f : GcFile) : GcStats × Bool :=
  let st := { st with scanned := st.scanned + 1 }
  if gcFileValid now f ttlMs then (st, true)
  else if f.deletable then ({ st with deleted := st.deleted + 1 }, false)
  else ({ st with errors := st.errors + 1 }, true)

/-- Sweep one directory listing in order, applying `tryDelete` to the
files selected by `consider` (the top-level sweep only considers `.json`
files).  Returns the stats and the surviving listing. -/
def sweepList (now ttlMs : Int) (consider : GcFile → Bool) :
    List GcFile → GcStats → GcStats × List GcFile
  | [], st => (st, [])
  | f :: rest, st =>
    if consider f then
      let r := tryDelete now ttlMs st f
      let rec' := sweepList now ttlMs consider rest r.1
      (rec'.1, if r.2 then f :: rec'.2 else rec'.2)
    else
      let rec' := sweepList now ttlMs consider rest st
      (rec'.1, f :: rec'.2)

/-- The first loop of `runGarbageCollection`: sweep the top-level `.json`
files under the index TTL; a failed root listing counts one error. -/
def gcRootStage (now indexTtlMs : Int) (fs : CacheFS) : GcStats × List GcFile :=
  let st0 : GcStats := { scanned := 0, deleted := 0, errors := 0 }
  if fs.rootExists then
    if fs.rootListable then
      sweepList now indexTtlMs (fun f => strEndsWith f.name ".json") fs.rootFiles st0
    else ({ st0 with errors := st0.errors + 1 }, fs.rootFiles)
  else (st0, fs.rootFiles)

/-- The second loop of `runGarbageCollection`: sweep every file of every
`docs/<version>` directory under the doc TTL; each failed directory
listing counts one error and skips only that directory. -/
def gcDocsStage (now docTtlMs : Int) (fs : CacheFS) (st : GcStats) :
    GcStats × List VersionDir :=
  if fs.docsDirExists then
    if fs.docsListable then
      fs.versionDirs.foldl
        (fun (acc : GcStats × List VersionDir) vd =>
          if vd.listable then
            let swept := sweepList now docTtlMs (fun _ => true) vd.docs acc.1
            (swept.1, acc.2 ++ [{ vd with docs := swept.2 }])
          else ({ acc.1 with errors := acc.1.errors + 1 }, acc.2 ++ [vd]))
        (st, [])
    else ({ st with errors := st.errors + 1 }, fs.versionDirs)
  else (st, fs.versionDirs)

/-- Function `runGarbageCollection` from `cache.ts`: sweep top-level `.json` files
under the index TTL, then every file of every `docs/<version>` directory
under the doc TTL; a failed directory listing counts an error but does not
abort the sweep. -/
def runGarbageCollection (now : Int) (fs : CacheFS) (indexTtlMs docTtlMs : Int) :
    GcStats × CacheFS :=
  let root := gcRootStage now indexTtlMs fs
  let docs := gcDocsStage now docTtlMs fs root.1
  (docs.1, { fs with rootFiles := root.2, versionDirs := docs.2 })

/-! ## Specification-side definitions

The remaining definitions are not part of the embedded program: they
state claims (claim-worded variants, spec-level counts) and name the
shapes the characterization theorems below refer to. -/

/-- The qualification predicate exactly as claim C3 words it: name substring
match, and a supplied type must equal the entry type (both lowercased). -/
def qualifiesPerClaim (query : String) (type : Option String) (e : DocEntry) : Bool :=
  strContains (strToLower e.name) (strToLower query) &&
    (match type with
     | none => true
     | some tv => strToLower e.type == strToLower tv)

/-- The amended qualification predicate: an empty-string type filter is
falsy in JS and therefore behaves as if no filter was supplied. -/
def qualifiesAmended (query : String) (type : Option String) (e : DocEntry) : Bool :=
  strContains (strToLower e.name) (strToLower query) &&
    (match type with
     | none => true
     | some tv => strToLower tv == "" || strToLower e.type == strToLower tv)

/-- Deduplicate a result list by `path`, keeping first occurrences. -/
def dedupByPath (seen : List String) : List DocEntry → List DocEntry
  | [] => []
  | e :: rest =>
    if seen.contains e.path then dedupByPath seen rest
    else e :: dedupByPath (e.path :: seen) rest

/-- Function `searchWithFallback` exactly as claim C1 words it: the fallback runs
whenever a type filter was supplied (`type ≠ none`) and matched nothing. -/
def searchWithFallbackPerClaim (index : DocIndex) (searchIndex : SearchIndex) (query : String)
    (type : Option String) (limit : Option Nat) : FallbackOutcome :=
  let results := search index query type limit
  if 0 < results.length ∨ type = none then
    { results := results, fallbackUsed := false, typeInference := none }
  else
    let ti := inferTypesForQuery query searchIndex
    let lim := limit.getD CONFIG.defaultLimit
    let inferredResults :=
      (ti.inferredTypes.take 2).flatMap (fun ty => search index query (some ty) (some ((lim + 1) / 2)))
    let unfiltered := search index query none limit
    { results := (dedupByPath [] (inferredResults ++ unfiltered)).take lim,
      fallbackUsed := true, typeInference := some ti }

/-- Amended form of claim C1: additionally, an empty-string type filter is
falsy in JS, so it is trusted as-is (no fallback) exactly like an absent
filter. -/
def searchWithFallbackAmended (index : DocIndex) (searchIndex : SearchIndex) (query : String)
    (type : Option String) (limit : Option Nat) : FallbackOutcome :=
  let results := search index query type limit
  if 0 < results.length ∨ type = none ∨ type = some "" then
    { results := results, fallbackUsed := false, typeInference := none }
  else
    let ti := inferTypesForQuery query searchIndex
    let lim := limit.getD CONFIG.defaultLimit
    let inferredResults :=
      (ti.inferredTypes.take 2).flatMap (fun ty => search index query (some ty) (some ((lim + 1) / 2)))
    let unfiltered := search index query none limit
    { results := (dedupByPath [] (inferredResults ++ unfiltered)).take lim,
      fallbackUsed := true, typeInference := some ti }

/-! ## Specification-level keyword/type counts (for claim C4)

These definitions express "occurrences of a keyword under a type" directly
over the document index, independently of the accumulation maps the code
builds; the theorems below connect the two. -/

/-- The entries whose extracted name keywords contain `kw`. -/
def entriesWithKeyword (entries : List DocEntry) (kw : String) : List DocEntry :=
  entries.filter (fun e => (extractKeywords e.name).contains kw)

/-- The types of those entries, in index order (with repetitions). -/
def typesOf (entries : List DocEntry) (kw : String) : List String :=
  (entriesWithKeyword entries kw).map DocEntry.type

/-- Number of occurrences of `ty` in a type list. -/
def countIn (tys : List String) (ty : String) : Nat :=
  (tys.filter (fun x => x == ty)).length

/-- Occurrences of keyword `kw` under type `ty` across the index. -/
def keywordTypeCount (entries : List DocEntry) (kw ty : String) : Nat :=
  countIn (typesOf entries kw) ty

/-- The distinct types keyword `kw` occurs under, in first-seen order. -/
def keywordTypesSeen (entries : List DocEntry) (kw : String) : List String :=
  dedupFirstSeen (typesOf entries kw)

/-- The frequency table of a type list: distinct types in first-seen order,
each with its occurrence count. -/
def freqOf (tys : List String) : FreqMap :=
  (dedupFirstSeen tys).map (fun ty => (ty, countIn tys ty))

/-- Association-list lookup on the keyword accumulator. -/
def lookupKw (st : KwState) (kw : String) : Option (FreqMap × List String) :=
  (st.find? (fun x => x.1 == kw)).map Prod.snd

/-- The keys of the keyword accumulator, in insertion order. -/
def keysOf (st : KwState) : List String :=
  st.map (fun x => x.1)

/-- The value one `updateKeyword` step writes for keyword `kw`. -/
def updatedValue (n t : String) : Option (FreqMap × List String) → FreqMap × List String
  | none => ([(t, 1)], [sampleString n t])
  | some (tf, ss) =>
    (bumpFreq t tf, if ss.length < 3 then ss ++ [sampleString n t] else ss)

/-- A swept file that fails its validity check and whose deletion succeeds. -/
def gcDeletes (now ttlMs : Int) (f : GcFile) : Bool :=
  !gcFileValid now f ttlMs && f.deletable

/-- A swept file that fails its validity check but cannot be deleted. -/
def gcFails (now ttlMs : Int) (f : GcFile) : Bool :=
  !gcFileValid now f ttlMs && !f.deletable

/-- A swept file that stays on disk: valid, or with a failing deletion. -/
def gcSurvives (now ttlMs : Int) (f : GcFile) : Bool :=
  gcFileValid now f ttlMs || !f.deletable

/-- The top-level entries the sweep visits: the `.json` files of the cache
root, when it exists and can be listed. -/
def sweptRootFiles (fs : CacheFS) : List GcFile :=
  if fs.rootExists && fs.rootListable then
    fs.rootFiles.filter (fun f => strEndsWith f.name ".json")
  else []

/-- The per-version document entries the sweep visits. -/
def sweptDocFiles (fs : CacheFS) : List GcFile :=
  if fs.docsDirExists && fs.docsListable then
    (fs.versionDirs.filter VersionDir.listable).flatMap VersionDir.docs
  else []

/-- Errors contributed by failed directory listings. -/
def listingErrors (fs : CacheFS) : Nat :=
  (if fs.rootExists && !fs.rootListable then 1 else 0) +
  (if fs.docsDirExists && !fs.docsListable then 1 else 0) +
  (if fs.docsDirExists && fs.docsListable then
    (fs.versionDirs.filter (fun vd => !vd.listable)).length
  else 0)

/-! ## Characterization of the `search` scan loop -/

theorem searchLoop_eq (q : String) (t : Option String) (max : Nat) :
    ∀ (l : List DocEntry) (acc : List DocEntry),
      searchLoop q t max l acc =
        if max ≤ acc.length then acc.reverse
        else acc.reverse ++ (l.filter (entryQualifies q t)).take (max - acc.length)
  | [], acc => by
    by_cases hmax : max ≤ acc.length <;> simp [searchLoop, hmax]
  | e :: rest, acc => by
    by_cases hmax : max ≤ acc.length
    · simp [searchLoop, hmax]
    · by_cases hq : entryQualifies q t e
      · have hk : max - acc.length = (max - (acc.length + 1)) + 1 := by omega
        rw [searchLoop, if_neg hmax, if_pos hq, searchLoop_eq q t max rest (e :: acc)]
        by_cases hmax1 : max ≤ acc.length + 1
        · have hk1 : max - acc.length = 1 := by omega
          simp [hmax1, hmax, hq, List.filter_cons, hk1]
        · simp only [hmax1, if_neg, List.filter_cons, hq, if_true, List.length_cons,
            List.reverse_cons, hk]
          simp [List.take_succ_cons, hmax]
      · rw [searchLoop, if_neg hmax, if_neg (by simp [hq]), searchLoop_eq q t max rest acc]
        simp [hmax, List.filter_cons, hq]

/-- Function `search` returns the first `limit` qualifying entries in index order. -/
theorem search_eq_filter_take (index : DocIndex) (query : String) (type : Option String)
    (limit : Option Nat) :
    search index query type limit =
      (index.entries.filter
        (entryQualifies (strToLower query) (type.map strToLower))).take
        (limit.getD CONFIG.defaultLimit) := by
  rw [search, search.go, searchLoop_eq]
  rcases Nat.eq_zero_or_pos (limit.getD CONFIG.defaultLimit) with h | h
  · simp [h]
  · simp [Nat.not_le.mpr h]

theorem entryQualifies_eq_amended (query : String) (type : Option String) (e : DocEntry) :
    entryQualifies (strToLower query) (type.map strToLower) e = qualifiesAmended query type e := by
  cases type <;> rfl

/-! ## Characterization of the fallback combine loop -/

theorem combineLoop_eq (lim : Nat) :
    ∀ (l : List DocEntry) (seen : List String) (acc : List DocEntry), acc.length < lim →
      combineLoop lim l seen acc = acc.reverse ++ (dedupByPath seen l).take (lim - acc.length)
  | [], seen, acc, _ => by simp [combineLoop, dedupByPath]
  | e :: rest, seen, acc, hlt => by
    by_cases hseen : seen.contains e.path
    · rw [combineLoop, if_pos hseen, dedupByPath, if_pos hseen,
        combineLoop_eq lim rest seen acc hlt]
    · rw [combineLoop, if_neg hseen, dedupByPath, if_neg hseen]
      by_cases hfull : lim ≤ acc.length + 1
      · have hk : lim - acc.length = 1 := by omega
        simp [hfull, hk]
      · rw [if_neg hfull, combineLoop_eq lim rest (e.path :: seen) (e :: acc) (by simp; omega)]
        have hk : lim - acc.length = (lim - (acc.length + 1)) + 1 := by omega
        simp [hk, List.take_succ_cons]

theorem foldl_append_eq_flatMap (f : α → List β) :
    ∀ (ts : List α) (acc : List β), ts.foldl (fun acc t => acc ++ f t) acc = acc ++ ts.flatMap f
  | [], acc => by simp
  | t :: ts, acc => by
    rw [List.foldl_cons, foldl_append_eq_flatMap f ts (acc ++ f t)]
    simp

theorem optStrFalsy_iff (type : Option String) :
    optStrFalsy type = true ↔ type = none ∨ type = some "" := by
  cases type with
  | none => simp [optStrFalsy]
  | some s => simp [optStrFalsy]

/-- C1 (amended): `searchWithFallback` returns the plain search results
with `fallbackUsed = false` whenever they are non-empty, no type filter
was supplied, or the supplied filter is the empty string (falsy in JS);
otherwise it computes the type inference, concatenates the top-2
inferred-type searches (capped at `⌈limit/2⌉`) before the unfiltered
search, deduplicates by path keeping first occurrences, truncates to
`limit` and returns `fallbackUsed = true` with the inference result. -/
theorem searchWithFallback_eq_amended (index : DocIndex) (searchIndex : SearchIndex)
    (query : String) (type : Option String) (limit : Option Nat) :
    searchWithFallback index searchIndex query type limit =
      searchWithFallbackAmended index searchIndex query type limit := by
  rw [searchWithFallback, searchWithFallbackAmended]
  have hcond : ((decide (0 < (search index query type limit).length) || optStrFalsy type) = true)
      ↔ (0 < (search index query type limit).length ∨ type = none ∨ type = some "") := by
    rw [Bool.or_eq_true, decide_eq_true_eq, optStrFalsy_iff]
  by_cases h : 0 < (search index query type limit).length ∨ type = none ∨ type = some ""
  · rw [if_pos (hcond.mpr h), if_pos h]
  · rw [if_neg (fun hb => h (hcond.mp hb)), if_neg h]
    simp only [foldl_append_eq_flatMap, List.nil_append]
    rcases Nat.eq_zero_or_pos (limit.getD CONFIG.defaultLimit) with h0 | hpos
    · -- effective limit 0: every inner search is truncated to 0 results,
      -- so both the loop and the spec-side dedup run on the empty list
      have hlim : limit = some 0 := by
        cases limit with
        | none => simp [CONFIG.defaultLimit] at h0
        | some n => simpa using h0
      subst hlim
      have hempty : ∀ ty, search index query (some ty) (some ((0 + 1) / 2)) = [] := fun ty => by
        rw [search_eq_filter_take]; simp
      have hempty2 : search index query none (some 0) = [] := by
        rw [search_eq_filter_take]; simp
      simp [hempty, hempty2, List.flatMap_def, combineLoop, dedupByPath]
    · rw [combineLoop_eq _ _ _ _ (by simpa using hpos)]
      simp

/-! ## Permutation and sum lemmas for the stable sort -/

theorem insertDesc_perm (key : α → Nat) (x : α) :
    ∀ l : List α, (insertDesc key x l).Perm (x :: l)
  | [] => List.Perm.refl _
  | y :: ys => by
    rw [insertDesc]
    by_cases h : key y ≤ key x
    · rw [if_pos h]
    · rw [if_neg h]
      exact ((insertDesc_perm key x ys).cons y).trans (List.Perm.swap x y ys)

theorem sortByKeyDesc_perm (key : α → Nat) :
    ∀ l : List α, (sortByKeyDesc key l).Perm l
  | [] => List.Perm.refl _
  | x :: xs =>
    (insertDesc_perm key x (sortByKeyDesc key xs)).trans ((sortByKeyDesc_perm key xs).cons x)

theorem mem_sortByKeyDesc (key : α → Nat) (l : List α) (x : α) :
    x ∈ sortByKeyDesc key l ↔ x ∈ l :=
  (sortByKeyDesc_perm key l).mem_iff

theorem foldl_add_snd : ∀ (l : List (String × Nat)) (a : Nat),
    l.foldl (fun sum p => sum + p.2) a = a + (l.map Prod.snd).sum
  | [], a => by simp
  | p :: rest, a => by
    rw [List.foldl_cons, foldl_add_snd rest (a + p.2)]
    simp [List.sum_cons]
    omega

theorem sortByKeyDesc_map_snd_sum (l : List (String × Nat)) :
    ((sortByKeyDesc Prod.snd l).map Prod.snd).sum = (l.map Prod.snd).sum :=
  ((sortByKeyDesc_perm Prod.snd l).map Prod.snd).sum_eq

/-! ## Lemmas about first-seen deduplication -/

theorem mem_dedupFirstSeen_go (seen : List String) :
    ∀ (l : List String) (k : String), k ∈ dedupFirstSeen.go seen l → k ∈ l
  | [], _, h => by simp [dedupFirstSeen.go] at h
  | x :: rest, k, h => by
    rw [dedupFirstSeen.go] at h
    by_cases hx : seen.contains x
    · rw [if_pos hx] at h
      exact List.mem_cons_of_mem x (mem_dedupFirstSeen_go seen rest k h)
    · rw [if_neg hx] at h
      rcases List.mem_cons.mp h with rfl | h
      · exact List.mem_cons_self k rest
      · exact List.mem_cons_of_mem x (mem_dedupFirstSeen_go (x :: seen) rest k h)

theorem dedupFirstSeen_go_not_seen (seen : List String) :
    ∀ (l : List String) (k : String), k ∈ dedupFirstSeen.go seen l → seen.contains k = false
  | [], _, h => by simp [dedupFirstSeen.go] at h
  | x :: rest, k, h => by
    rw [dedupFirstSeen.go] at h
    by_cases hx : seen.contains x
    · rw [if_pos hx] at h
      exact dedupFirstSeen_go_not_seen seen rest k h
    · rw [if_neg hx] at h
      rcases List.mem_cons.mp h with rfl | h
      · exact Bool.not_eq_true _ ▸ hx
      · have := dedupFirstSeen_go_not_seen (x :: seen) rest k h
        simp only [List.contains_cons, Bool.or_eq_false_iff] at this
        exact this.2

theorem dedupFirstSeen_go_nodup (seen : List String) :
    ∀ l : List String, (dedupFirstSeen.go seen l).Nodup
  | [] => by simp [dedupFirstSeen.go]
  | x :: rest => by
    rw [dedupFirstSeen.go]
    by_cases hx : seen.contains x
    · rw [if_pos hx]
      exact dedupFirstSeen_go_nodup seen rest
    · rw [if_neg hx]
      refine List.nodup_cons.mpr ⟨fun hmem => ?_, dedupFirstSeen_go_nodup (x :: seen) rest⟩
      have := dedupFirstSeen_go_not_seen (x :: seen) rest x hmem
      simp at this

theorem dedupFirstSeen_nodup (l : List String) : (dedupFirstSeen l).Nodup :=
  dedupFirstSeen_go_nodup [] l

theorem mem_dedupFirstSeen_go_iff (seen : List String) :
    ∀ (l : List String) (k : String),
      k ∈ dedupFirstSeen.go seen l ↔ k ∈ l ∧ seen.contains k = false
  | [], k => by simp [dedupFirstSeen.go]
  | x :: rest, k => by
    rw [dedupFirstSeen.go]
    by_cases hx : seen.contains x
    · rw [if_pos hx, mem_dedupFirstSeen_go_iff seen rest k]
      constructor
      · exact fun ⟨h1, h2⟩ => ⟨List.mem_cons_of_mem x h1, h2⟩
      · rintro ⟨h1, h2⟩
        rcases List.mem_cons.mp h1 with rfl | h1
        · rw [hx] at h2; cases h2
        · exact ⟨h1, h2⟩
    · rw [if_neg hx, List.mem_cons, mem_dedupFirstSeen_go_iff (x :: seen) rest k]
      simp only [List.contains_cons, Bool.or_eq_false_iff, List.mem_cons]
      constructor
      · rintro (rfl | ⟨h1, h2, h3⟩)
        · exact ⟨Or.inl rfl, Bool.not_eq_true _ ▸ hx⟩
        · exact ⟨Or.inr h1, h3⟩
      · rintro ⟨rfl | h1, h2⟩
        · exact Or.inl rfl
        · by_cases hxk : k == x
          · exact Or.inl (eq_of_beq hxk)
          · exact Or.inr ⟨h1, Bool.not_eq_true _ ▸ hxk, h2⟩

theorem mem_dedupFirstSeen_iff (l : List String) (k : String) :
    k ∈ dedupFirstSeen l ↔ k ∈ l := by
  rw [dedupFirstSeen, mem_dedupFirstSeen_go_iff]
  simp

/-! ## Counting lemmas -/

theorem extractKeywords_nodup (s : String) : (extractKeywords s).Nodup :=
  dedupFirstSeen_nodup _

theorem countIn_append_singleton (tys : List String) (ty0 ty : String) :
    countIn (tys ++ [ty0]) ty = countIn tys ty + if ty0 == ty then 1 else 0 := by
  rw [countIn, countIn, List.filter_append, List.length_append]
  by_cases h : ty0 == ty <;> simp [List.filter_cons, h]

theorem countIn_eq_zero_of_not_mem {tys : List String} {ty : String} (h : ty ∉ tys) :
    countIn tys ty = 0 := by
  rw [countIn, List.length_eq_zero, List.filter_eq_nil_iff]
  intro x hx hbeq
  exact h (eq_of_beq hbeq ▸ hx)

theorem beq_false_of_ne {a b : String} (h : a ≠ b) : (a == b) = false := by
  by_cases hb : a == b
  · exact absurd (eq_of_beq hb) h
  · simpa using hb

theorem dedupFirstSeen_go_append_singleton (x : String) :
    ∀ (l : List String) (seen : List String),
      dedupFirstSeen.go seen (l ++ [x]) =
        dedupFirstSeen.go seen l ++ (if seen.contains x || l.contains x then [] else [x])
  | [], seen => by
    by_cases h : seen.contains x <;> simp [dedupFirstSeen.go, h]
  | y :: rest, seen => by
    rw [List.cons_append, dedupFirstSeen.go, dedupFirstSeen.go]
    by_cases hy : seen.contains y
    · rw [if_pos hy, if_pos hy, dedupFirstSeen_go_append_singleton x rest seen]
      by_cases hxy : x = y
      · have hx : x ∈ seen := by subst hxy; simpa using hy
        simp [hx]
      · simp [hxy]
    · rw [if_neg hy, if_neg hy, dedupFirstSeen_go_append_singleton x rest (y :: seen)]
      simp only [List.contains_cons, List.cons_append]
      by_cases hxy : x = y
      · subst hxy; simp
      · simp [hxy, or_assoc]

theorem dedupFirstSeen_append_singleton (l : List String) (x : String) :
    dedupFirstSeen (l ++ [x]) =
      dedupFirstSeen l ++ (if l.contains x then [] else [x]) := by
  rw [dedupFirstSeen, dedupFirstSeen_go_append_singleton]
  simp

theorem bumpFreq_map_of_mem (f : String → Nat) (ty : String) :
    ∀ (ks : List String), ks.Nodup → ty ∈ ks →
      bumpFreq ty (ks.map (fun t => (t, f t))) =
        ks.map (fun t => (t, if t = ty then f t + 1 else f t))
  | [], _, hmem => absurd hmem (List.not_mem_nil ty)
  | k :: rest, hnd, hmem => by
    rw [List.map_cons, List.map_cons, bumpFreq]
    by_cases hk : k = ty
    · subst hk
      rw [if_pos rfl, if_pos rfl]
      have hnot : k ∉ rest := (List.nodup_cons.mp hnd).1
      have : rest.map (fun t => (t, if t = k then f t + 1 else f t)) =
          rest.map (fun t => (t, f t)) :=
        List.map_congr_left (fun t ht => by
          have : t ≠ k := fun h => hnot (h ▸ ht)
          simp [this])
      rw [this]
    · rw [if_neg hk, if_neg (fun h : k = ty => hk h)]
      have hmem' : ty ∈ rest := by
        rcases List.mem_cons.mp hmem with h | h
        · exact absurd h.symm hk
        · exact h
      rw [bumpFreq_map_of_mem f ty rest (List.nodup_cons.mp hnd).2 hmem']

theorem bumpFreq_map_of_not_mem (f : String → Nat) (ty : String) :
    ∀ (ks : List String), ty ∉ ks →
      bumpFreq ty (ks.map (fun t => (t, f t))) = ks.map (fun t => (t, f t)) ++ [(ty, 1)]
  | [], _ => rfl
  | k :: rest, hmem => by
    have hk : k ≠ ty := fun h => hmem (h ▸ List.mem_cons_self k rest)
    rw [List.map_cons, bumpFreq, if_neg hk,
      bumpFreq_map_of_not_mem f ty rest (fun h => hmem (List.mem_cons_of_mem k h))]
    simp

/-- Appending one occurrence of `ty` to a type list bumps its frequency
table exactly as `bumpFreq` does. -/
theorem freqOf_append_singleton (tys : List String) (ty : String) :
    freqOf (tys ++ [ty]) = bumpFreq ty (freqOf tys) := by
  rw [freqOf, freqOf, dedupFirstSeen_append_singleton]
  by_cases hmem : ty ∈ tys
  · rw [if_pos (by simpa using hmem), List.append_nil,
      bumpFreq_map_of_mem (fun t => countIn tys t) ty (dedupFirstSeen tys)
        (dedupFirstSeen_nodup tys) ((mem_dedupFirstSeen_iff tys ty).mpr hmem)]
    refine List.map_congr_left (fun t _ => ?_)
    rw [countIn_append_singleton]
    by_cases h : t = ty
    · subst h; simp
    · rw [beq_false_of_ne (fun hh => h hh.symm)]
      simp [h]
  · rw [if_neg (by simpa using hmem), List.map_append,
      bumpFreq_map_of_not_mem (fun t => countIn tys t) ty (dedupFirstSeen tys)
        (fun h => hmem ((mem_dedupFirstSeen_iff tys ty).mp h))]
    congr 1
    · refine List.map_congr_left (fun t ht => ?_)
      rw [countIn_append_singleton]
      have hne : t ≠ ty := fun h => hmem (h ▸ (mem_dedupFirstSeen_iff tys t).mp ht)
      rw [beq_false_of_ne (fun hh => hne hh.symm)]
      simp
    · rw [List.map_singleton, countIn_append_singleton, countIn_eq_zero_of_not_mem hmem]
      simp

/-! ## Lookup behaviour of the keyword accumulator -/

theorem lookupKw_nil (kw : String) : lookupKw [] kw = none := rfl

theorem lookupKw_cons_self (k : String) (v : FreqMap × List String) (rest : KwState) :
    lookupKw ((k, v) :: rest) k = some v := by
  simp [lookupKw, List.find?_cons_of_pos]

theorem lookupKw_cons_of_ne {k kw : String} (v : FreqMap × List String) (rest : KwState)
    (h : k ≠ kw) : lookupKw ((k, v) :: rest) kw = lookupKw rest kw := by
  simp only [lookupKw]
  rw [List.find?_cons_of_neg]
  simp [beq_false_of_ne h]

theorem lookupKw_updateKeyword (n t kw : String) :
    ∀ (st : KwState) (kw' : String),
      lookupKw (updateKeyword n t kw st) kw' =
        if kw' = kw then some (updatedValue n t (lookupKw st kw))
        else lookupKw st kw'
  | [], kw' => by
    by_cases h : kw' = kw
    · subst h
      rw [updateKeyword, if_pos rfl]
      exact lookupKw_cons_self _ _ []
    · rw [updateKeyword, if_neg h, lookupKw_cons_of_ne _ _ (fun hh => h hh.symm)]
  | (k, tf, ss) :: rest, kw' => by
    rw [updateKeyword]
    by_cases hk : k = kw
    · subst hk
      by_cases h : kw' = k
      · subst h
        rw [if_pos rfl, if_pos rfl, lookupKw_cons_self, lookupKw_cons_self]
        rfl
      · rw [if_pos rfl, if_neg h, lookupKw_cons_of_ne _ _ (fun hh => h hh.symm),
          lookupKw_cons_of_ne _ _ (fun hh => h hh.symm)]
    · rw [if_neg hk]
      by_cases h : kw' = k
      · subst h
        rw [if_neg hk, lookupKw_cons_self, lookupKw_cons_self]
      · rw [lookupKw_cons_of_ne _ _ (fun hh => h hh.symm),
          lookupKw_updateKeyword n t kw rest kw',
          @lookupKw_cons_of_ne k kw' _ _ (fun hh => h hh.symm),
          @lookupKw_cons_of_ne k kw _ _ hk]

theorem keysOf_updateKeyword (n t kw : String) :
    ∀ st : KwState,
      keysOf (updateKeyword n t kw st) =
        if kw ∈ keysOf st then keysOf st else keysOf st ++ [kw]
  | [] => by simp [updateKeyword, keysOf]
  | (k, tf, ss) :: rest => by
    rw [updateKeyword]
    by_cases hk : k = kw
    · subst hk
      simp [keysOf]
    · rw [if_neg hk]
      have := keysOf_updateKeyword n t kw rest
      simp only [keysOf, List.map_cons] at this ⊢
      rw [this]
      have hne : kw ≠ k := fun hh => hk hh.symm
      by_cases hmem : kw ∈ rest.map (fun x => x.1)
      · simp [hmem, hne]
      · simp [hmem, hne]

theorem keysOf_nodup_updateKeyword (n t kw : String) (st : KwState)
    (h : (keysOf st).Nodup) : (keysOf (updateKeyword n t kw st)).Nodup := by
  rw [keysOf_updateKeyword]
  by_cases hmem : kw ∈ keysOf st
  · rwa [if_pos hmem]
  · rw [if_neg hmem]
    exact List.Nodup.append h (List.nodup_singleton kw) (by simpa using hmem)

theorem lookupKw_foldl_update (n t : String) :
    ∀ (ks : List String) (st : KwState) (kw' : String), ks.Nodup →
      lookupKw (ks.foldl (fun st kw => updateKeyword n t kw st) st) kw' =
        if kw' ∈ ks then some (updatedValue n t (lookupKw st kw'))
        else lookupKw st kw'
  | [], st, kw', _ => by simp
  | k :: ks, st, kw', hnd => by
    rw [List.foldl_cons,
      lookupKw_foldl_update n t ks (updateKeyword n t k st) kw' (List.nodup_cons.mp hnd).2]
    have hknotin : k ∉ ks := (List.nodup_cons.mp hnd).1
    by_cases hmem : kw' ∈ ks
    · have hne : kw' ≠ k := fun hh => hknotin (hh ▸ hmem)
      rw [if_pos hmem, if_pos (List.mem_cons_of_mem k hmem),
        lookupKw_updateKeyword, if_neg hne]
    · rw [if_neg hmem, lookupKw_updateKeyword]
      by_cases hk : kw' = k
      · rw [if_pos hk, if_pos (hk ▸ List.mem_cons_self k ks), hk]
      · rw [if_neg hk, if_neg (fun hh => (List.mem_cons.mp hh).elim hk hmem)]

theorem keysOf_nodup_foldl_update (n t : String) :
    ∀ (ks : List String) (st : KwState), (keysOf st).Nodup →
      (keysOf (ks.foldl (fun st kw => updateKeyword n t kw st) st)).Nodup
  | [], _, h => h
  | k :: ks, st, h =>
    keysOf_nodup_foldl_update n t ks (updateKeyword n t k st)
      (keysOf_nodup_updateKeyword n t k st h)

theorem keywordState_keys_nodup :
    ∀ (entries : List DocEntry) (st : KwState), (keysOf st).Nodup →
      (keysOf (entries.foldl
        (fun st e => (extractKeywords e.name).foldl
          (fun st kw => updateKeyword e.name e.type kw st) st) st)).Nodup
  | [], _, h => h
  | e :: entries, st, h =>
    keywordState_keys_nodup entries _
      (keysOf_nodup_foldl_update e.name e.type (extractKeywords e.name) st h)

theorem lookupKw_of_mem :
    ∀ (st : KwState), (keysOf st).Nodup → ∀ x ∈ st, lookupKw st x.1 = some x.2
  | [], _, x, hx => absurd hx (List.not_mem_nil x)
  | (k, v) :: rest, hnd, x, hx => by
    have hnd' : (k :: keysOf rest).Nodup := hnd
    rcases List.mem_cons.mp hx with rfl | hx'
    · exact lookupKw_cons_self k v rest
    · have hknotin : k ∉ keysOf rest := (List.nodup_cons.mp hnd').1
      have hne : k ≠ x.1 := fun hh => hknotin (hh ▸ List.mem_map_of_mem (fun y => y.1) hx')
      rw [lookupKw_cons_of_ne v rest hne]
      exact lookupKw_of_mem rest (List.nodup_cons.mp hnd').2 x hx'

/-! ## The keyword accumulator computes the spec-level frequency tables -/

theorem typesOf_append_singleton (es : List DocEntry) (e : DocEntry) (kw : String) :
    typesOf (es ++ [e]) kw =
      typesOf es kw ++ (if (extractKeywords e.name).contains kw then [e.type] else []) := by
  rw [typesOf, typesOf, entriesWithKeyword, entriesWithKeyword, List.filter_append]
  by_cases hm : kw ∈ extractKeywords e.name <;> simp [List.filter_cons, hm]

theorem keywordState_append_singleton (es : List DocEntry) (e : DocEntry) :
    keywordState (es ++ [e]) =
      (extractKeywords e.name).foldl
        (fun st kw => updateKeyword e.name e.type kw st) (keywordState es) := by
  rw [keywordState, keywordState, List.foldl_append]
  simp

theorem freqOf_singleton (ty : String) : freqOf [ty] = [(ty, 1)] := by
  have h : ([] : List String) ++ [ty] = [ty] := rfl
  rw [← h, freqOf_append_singleton]
  rfl

/-- After scanning any entry list, the accumulator holds, for each keyword
that occurred, exactly the spec-level frequency table of its types. -/
theorem keywordState_lookup (kw : String) (entries : List DocEntry) :
    (typesOf entries kw = [] ∧ lookupKw (keywordState entries) kw = none) ∨
    (∃ ss, lookupKw (keywordState entries) kw = some (freqOf (typesOf entries kw), ss)) := by
  induction entries using List.reverseRecOn with
  | nil => exact Or.inl ⟨rfl, rfl⟩
  | append_singleton es e ih =>
    rw [keywordState_append_singleton, typesOf_append_singleton,
      lookupKw_foldl_update e.name e.type (extractKeywords e.name) _ kw
        (extractKeywords_nodup e.name)]
    by_cases hmem : kw ∈ extractKeywords e.name
    · rw [if_pos hmem, if_pos (by simpa using hmem)]
      rcases ih with ⟨htys, hnone⟩ | ⟨ss, hsome⟩
      · right
        refine ⟨[sampleString e.name e.type], ?_⟩
        rw [hnone, htys, List.nil_append, freqOf_singleton]
        rfl
      · right
        refine ⟨if ss.length < 3 then ss ++ [sampleString e.name e.type] else ss, ?_⟩
        rw [hsome, freqOf_append_singleton]
        rfl
    · rw [if_neg hmem, if_neg (by simpa using hmem), List.append_nil]
      exact ih

theorem keywordState_nodup_keys (entries : List DocEntry) :
    (keysOf (keywordState entries)).Nodup :=
  keywordState_keys_nodup entries [] List.nodup_nil

/-- Every `(keyword, table, samples)` element of the final accumulator
carries the spec-level frequency table of its keyword. -/
theorem keywordState_mem_freq (entries : List DocEntry) (x : String × FreqMap × List String)
    (hx : x ∈ keywordState entries) : x.2.1 = freqOf (typesOf entries x.1) := by
  have hlook := lookupKw_of_mem (keywordState entries) (keywordState_nodup_keys entries) x hx
  rcases keywordState_lookup x.1 entries with ⟨_, hnone⟩ | ⟨ss, hsome⟩
  · rw [hnone] at hlook; cases hlook
  · rw [hsome] at hlook
    exact congrArg Prod.fst (Option.some.injEq _ _ ▸ hlook).symm

theorem sortByKeyDesc_singleton (key : α → Nat) (x : α) : sortByKeyDesc key [x] = [x] := rfl

/-! ## Characterization of the garbage-collection sweep -/

theorem sweepList_cons_valid {now ttlMs : Int} {consider : GcFile → Bool} {f : GcFile}
    {rest : List GcFile} {st : GcStats} (hc : consider f = true)
    (hv : gcFileValid now f ttlMs = true) :
    sweepList now ttlMs consider (f :: rest) st =
      ((sweepList now ttlMs consider rest { st with scanned := st.scanned + 1 }).1,
       f :: (sweepList now ttlMs consider rest { st with scanned := st.scanned + 1 }).2) := by
  simp [sweepList, tryDelete, hc, hv]

theorem sweepList_cons_deleted {now ttlMs : Int} {consider : GcFile → Bool} {f : GcFile}
    {rest : List GcFile} {st : GcStats} (hc : consider f = true)
    (hv : gcFileValid now f ttlMs = false) (hd : f.deletable = true) :
    sweepList now ttlMs consider (f :: rest) st =
      sweepList now ttlMs consider rest
        { st with scanned := st.scanned + 1, deleted := st.deleted + 1 } := by
  simp [sweepList, tryDelete, hc, hv, hd]

theorem sweepList_cons_stuck {now ttlMs : Int} {consider : GcFile → Bool} {f : GcFile}
    {rest : List GcFile} {st : GcStats} (hc : consider f = true)
    (hv : gcFileValid now f ttlMs = false) (hd : f.deletable = false) :
    sweepList now ttlMs consider (f :: rest) st =
      ((sweepList now ttlMs consider rest
          { st with scanned := st.scanned + 1, errors := st.errors + 1 }).1,
       f :: (sweepList now ttlMs consider rest
          { st with scanned := st.scanned + 1, errors := st.errors + 1 }).2) := by
  simp [sweepList, tryDelete, hc, hv, hd]

theorem sweepList_cons_skipped {now ttlMs : Int} {consider : GcFile → Bool} {f : GcFile}
    {rest : List GcFile} {st : GcStats} (hc : consider f = false) :
    sweepList now ttlMs consider (f :: rest) st =
      ((sweepList now ttlMs consider rest st).1,
       f :: (sweepList now ttlMs consider rest st).2) := by
  simp [sweepList, hc]

theorem sweepList_spec (now ttlMs : Int) (consider : GcFile → Bool) :
    ∀ (files : List GcFile) (st : GcStats),
      (sweepList now ttlMs consider files st).1.scanned =
          st.scanned + (files.filter consider).length ∧
      (sweepList now ttlMs consider files st).1.deleted =
          st.deleted + ((files.filter consider).filter (gcDeletes now ttlMs)).length ∧
      (sweepList now ttlMs consider files st).1.errors =
          st.errors + ((files.filter consider).filter (gcFails now ttlMs)).length ∧
      (sweepList now ttlMs consider files st).2 =
          files.filter (fun f => !consider f || gcSurvives now ttlMs f)
  | [], st => by simp [sweepList]
  | f :: rest, st => by
    by_cases hc : consider f
    · have hfc : List.filter consider (f :: rest) = f :: List.filter consider rest := by
        simp [List.filter_cons, hc]
      by_cases hv : gcFileValid now f ttlMs
      · obtain ⟨ihs, ihd, ihe, ihr⟩ := sweepList_spec now ttlMs consider rest
          { st with scanned := st.scanned + 1 }
        have hnd : gcDeletes now ttlMs f = false := by simp [gcDeletes, hv]
        have hnf : gcFails now ttlMs f = false := by simp [gcFails, hv]
        have hsv : (!consider f || gcSurvives now ttlMs f) = true := by
          simp [gcSurvives, hv]
        rw [sweepList_cons_valid hc hv]
        refine ⟨?_, ?_, ?_, ?_⟩
        · rw [ihs, hfc]; simp; omega
        · rw [ihd, hfc, List.filter_cons, hnd]; simp
        · rw [ihe, hfc, List.filter_cons, hnf]; simp
        · rw [ihr, List.filter_cons, hsv]; simp
      · have hv' : gcFileValid now f ttlMs = false := by simpa using hv
        by_cases hd : f.deletable
        · obtain ⟨ihs, ihd, ihe, ihr⟩ := sweepList_spec now ttlMs consider rest
            { st with scanned := st.scanned + 1, deleted := st.deleted + 1 }
          have hgd : gcDeletes now ttlMs f = true := by simp [gcDeletes, hv', hd]
          have hnf : gcFails now ttlMs f = false := by simp [gcFails, hd]
          have hsv : (!consider f || gcSurvives now ttlMs f) = false := by
            simp [gcSurvives, hv', hd, hc]
          rw [sweepList_cons_deleted hc hv' hd]
          refine ⟨?_, ?_, ?_, ?_⟩
          · rw [ihs, hfc]; simp; omega
          · rw [ihd, hfc, List.filter_cons, hgd]; simp; omega
          · rw [ihe, hfc, List.filter_cons, hnf]; simp
          · rw [ihr, List.filter_cons, hsv]; simp
        · have hd' : f.deletable = false := by simpa using hd
          obtain ⟨ihs, ihd, ihe, ihr⟩ := sweepList_spec now ttlMs consider rest
            { st with scanned := st.scanned + 1, errors := st.errors + 1 }
          have hnd : gcDeletes now ttlMs f = false := by simp [gcDeletes, hd']
          have hgf : gcFails now ttlMs f = true := by simp [gcFails, hv', hd']
          have hsv : (!consider f || gcSurvives now ttlMs f) = true := by
            simp [gcSurvives, hd']
          rw [sweepList_cons_stuck hc hv' hd']
          refine ⟨?_, ?_, ?_, ?_⟩
          · rw [ihs, hfc]; simp; omega
          · rw [ihd, hfc, List.filter_cons, hnd]; simp
          · rw [ihe, hfc, List.filter_cons, hgf]; simp; omega
          · rw [ihr, List.filter_cons, hsv]; simp
    · have hc' : consider f = false := by simpa using hc
      have hfc : List.filter consider (f :: rest) = List.filter consider rest := by
        simp [List.filter_cons, hc']
      have hsv : (!consider f || gcSurvives now ttlMs f) = true := by simp [hc']
      obtain ⟨ihs, ihd, ihe, ihr⟩ := sweepList_spec now ttlMs consider rest st
      rw [sweepList_cons_skipped hc']
      refine ⟨?_, ?_, ?_, ?_⟩
      · rw [ihs, hfc]
      · rw [ihd, hfc]
      · rw [ihe, hfc]
      · rw [ihr, List.filter_cons, hsv]; simp

/-- The per-version document sweep loop of `runGarbageCollection`,
characterized over any starting stats and accumulated directory list. -/
theorem gcDocsFold_spec (now dTtl : Int) :
    ∀ (vds : List VersionDir) (st : GcStats) (acc : List VersionDir),
      ((vds.foldl
        (fun (acc : GcStats × List VersionDir) vd =>
          if vd.listable then
            let swept := sweepList now dTtl (fun _ => true) vd.docs acc.1
            (swept.1, acc.2 ++ [{ vd with docs := swept.2 }])
          else ({ acc.1 with errors := acc.1.errors + 1 }, acc.2 ++ [vd]))
        (st, acc)).1.scanned =
          st.scanned + ((vds.filter VersionDir.listable).flatMap VersionDir.docs).length) ∧
      ((vds.foldl
        (fun (acc : GcStats × List VersionDir) vd =>
          if vd.listable then
            let swept := sweepList now dTtl (fun _ => true) vd.docs acc.1
            (swept.1, acc.2 ++ [{ vd with docs := swept.2 }])
          else ({ acc.1 with errors := acc.1.errors + 1 }, acc.2 ++ [vd]))
        (st, acc)).1.deleted =
          st.deleted + (((vds.filter VersionDir.listable).flatMap VersionDir.docs).filter
            (gcDeletes now dTtl)).length) ∧
      ((vds.foldl
        (fun (acc : GcStats × List VersionDir) vd =>
          if vd.listable then
            let swept := sweepList now dTtl (fun _ => true) vd.docs acc.1
            (swept.1, acc.2 ++ [{ vd with docs := swept.2 }])
          else ({ acc.1 with errors := acc.1.errors + 1 }, acc.2 ++ [vd]))
        (st, acc)).1.errors =
          st.errors + (vds.filter (fun vd => !vd.listable)).length +
            (((vds.filter VersionDir.listable).flatMap VersionDir.docs).filter
              (gcFails now dTtl)).length) ∧
      ((vds.foldl
        (fun (acc : GcStats × List VersionDir) vd =>
          if vd.listable then
            let swept := sweepList now dTtl (fun _ => true) vd.docs acc.1
            (swept.1, acc.2 ++ [{ vd with docs := swept.2 }])
          else ({ acc.1 with errors := acc.1.errors + 1 }, acc.2 ++ [vd]))
        (st, acc)).2 =
          acc ++ vds.map (fun vd =>
            if vd.listable then { vd with docs := vd.docs.filter (gcSurvives now dTtl) }
            else vd))
  | [], st, acc => by simp
  | vd :: vds, st, acc => by
    by_cases hl : vd.listable
    · obtain ⟨sws, swd, swe, swr⟩ := sweepList_spec now dTtl (fun _ => true) vd.docs st
      have hfilt : List.filter (fun _ => true) vd.docs = vd.docs := List.filter_true vd.docs
      have hsur : (sweepList now dTtl (fun _ => true) vd.docs st).2 =
          vd.docs.filter (gcSurvives now dTtl) := by
        rw [swr]
        simp
      obtain ⟨ihs, ihd, ihe, ihr⟩ := gcDocsFold_spec now dTtl vds
        (sweepList now dTtl (fun _ => true) vd.docs st).1
        (acc ++ [{ vd with docs := (sweepList now dTtl (fun _ => true) vd.docs st).2 }])
      have h1 : List.filter VersionDir.listable (vd :: vds) =
          vd :: List.filter VersionDir.listable vds := by
        simp [List.filter_cons, hl]
      have h2 : List.filter (fun vd => !vd.listable) (vd :: vds) =
          List.filter (fun vd => !vd.listable) vds := by
        simp [List.filter_cons, hl]
      rw [List.foldl_cons] at *
      rw [if_pos hl] at *
      refine ⟨?_, ?_, ?_, ?_⟩
      · rw [ihs, sws, hfilt, h1, List.flatMap_cons, List.length_append]
        omega
      · rw [ihd, swd, hfilt, h1, List.flatMap_cons, List.filter_append, List.length_append]
        omega
      · rw [ihe, swe, hfilt, h1, h2, List.flatMap_cons, List.filter_append, List.length_append]
        omega
      · rw [ihr, hsur, List.map_cons, if_pos hl]
        simp
    · have hl' : vd.listable = false := by simpa using hl
      have h1 : List.filter VersionDir.listable (vd :: vds) =
          List.filter VersionDir.listable vds := by
        simp [List.filter_cons, hl']
      have h2 : List.filter (fun vd => !vd.listable) (vd :: vds) =
          vd :: List.filter (fun vd => !vd.listable) vds := by
        simp [List.filter_cons, hl']
      obtain ⟨ihs, ihd, ihe, ihr⟩ := gcDocsFold_spec now dTtl vds
        { st with errors := st.errors + 1 } (acc ++ [vd])
      rw [List.foldl_cons] at *
      rw [if_neg hl] at *
      refine ⟨?_, ?_, ?_, ?_⟩
      · rw [ihs, h1]
      · rw [ihd, h1]
      · rw [ihe, h1, h2, List.length_cons]
        simp
        omega
      · rw [ihr, List.map_cons, if_neg hl]
        simp

/-- The top-level (index file) stage of the sweep. -/
theorem gcRootStage_spec (now indexTtlMs : Int) (fs : CacheFS) :
    (gcRootStage now indexTtlMs fs).1.scanned = (sweptRootFiles fs).length ∧
    (gcRootStage now indexTtlMs fs).1.deleted =
      ((sweptRootFiles fs).filter (gcDeletes now indexTtlMs)).length ∧
    (gcRootStage now indexTtlMs fs).1.errors =
      (if fs.rootExists && !fs.rootListable then 1 else 0) +
        ((sweptRootFiles fs).filter (gcFails now indexTtlMs)).length ∧
    (gcRootStage now indexTtlMs fs).2 =
      (if fs.rootExists && fs.rootListable then
        fs.rootFiles.filter (fun f => !strEndsWith f.name ".json" || gcSurvives now indexTtlMs f)
      else fs.rootFiles) := by
  by_cases hre : fs.rootExists
  · by_cases hrl : fs.rootListable
    · obtain ⟨sws, swd, swe, swr⟩ := sweepList_spec now indexTtlMs
        (fun f => strEndsWith f.name ".json") fs.rootFiles
        { scanned := 0, deleted := 0, errors := 0 }
      rw [gcRootStage]
      simp only [hre, hrl, if_true]
      refine ⟨?_, ?_, ?_, ?_⟩
      · rw [sws]; simp [sweptRootFiles, hre, hrl]
      · rw [swd]; simp [sweptRootFiles, hre, hrl]
      · rw [swe]; simp [sweptRootFiles, hre, hrl]
      · rw [swr]; simp [hre, hrl]
    · have hrl' : fs.rootListable = false := by simpa using hrl
      rw [gcRootStage]
      simp only [hre, hrl', if_true, if_false, Bool.false_eq_true]
      refine ⟨?_, ?_, ?_, ?_⟩ <;> simp [sweptRootFiles, hre, hrl']
  · have hre' : fs.rootExists = false := by simpa using hre
    rw [gcRootStage]
    simp only [hre', if_false, Bool.false_eq_true]
    refine ⟨?_, ?_, ?_, ?_⟩ <;> simp [sweptRootFiles, hre']

/-- The per-version document stage of the sweep, from any starting stats. -/
theorem gcDocsStage_spec (now docTtlMs : Int) (fs : CacheFS) (st : GcStats) :
    (gcDocsStage now docTtlMs fs st).1.scanned = st.scanned + (sweptDocFiles fs).length ∧
    (gcDocsStage now docTtlMs fs st).1.deleted =
      st.deleted + ((sweptDocFiles fs).filter (gcDeletes now docTtlMs)).length ∧
    (gcDocsStage now docTtlMs fs st).1.errors =
      st.errors + (if fs.docsDirExists && !fs.docsListable then 1 else 0) +
        (if fs.docsDirExists && fs.docsListable then
          (fs.versionDirs.filter (fun vd => !vd.listable)).length
        else 0) +
        ((sweptDocFiles fs).filter (gcFails now docTtlMs)).length ∧
    (gcDocsStage now docTtlMs fs st).2 =
      (if fs.docsDirExists && fs.docsListable then
        fs.versionDirs.map (fun vd =>
          if vd.listable then { vd with docs := vd.docs.filter (gcSurvives now docTtlMs) }
          else vd)
      else fs.versionDirs) := by
  by_cases hde : fs.docsDirExists
  · by_cases hdl : fs.docsListable
    · obtain ⟨fds, fdd, fde, fdr⟩ := gcDocsFold_spec now docTtlMs fs.versionDirs st []
      rw [gcDocsStage]
      simp only [hde, hdl, if_true]
      refine ⟨?_, ?_, ?_, ?_⟩
      · rw [fds]; simp [sweptDocFiles, hde, hdl]
      · rw [fdd]; simp [sweptDocFiles, hde, hdl]
      · rw [fde]; simp [sweptDocFiles, hde, hdl]
      · rw [fdr]; simp [hde, hdl]
    · have hdl' : fs.docsListable = false := by simpa using hdl
      rw [gcDocsStage]
      simp only [hde, hdl', if_true, if_false, Bool.false_eq_true]
      refine ⟨?_, ?_, ?_, ?_⟩ <;> simp [sweptDocFiles, hde, hdl']
  · have hde' : fs.docsDirExists = false := by simpa using hde
    rw [gcDocsStage]
    simp only [hde', if_false, Bool.false_eq_true]
    refine ⟨?_, ?_, ?_, ?_⟩ <;> simp [sweptDocFiles, hde']

/-! ## Shared helper: the confidence expression of `inferTypesForQuery` -/

theorem inferTypesForQuery_confidence_eq (query : String) (searchIndex : SearchIndex) :
    (inferTypesForQuery query searchIndex).confidence =
      if 0 < (matchingMappingsFor query searchIndex).length then
        min 100 (((matchingMappingsFor query searchIndex).length : ℚ) * 10 +
          ((((typeScoresFor query searchIndex).map Prod.snd).sum : Nat) : ℚ) / 100)
      else 0 := by
  have hsum : (sortByKeyDesc Prod.snd (typeScoresFor query searchIndex)).foldl
      (fun sum p => sum + p.2) 0 = ((typeScoresFor query searchIndex).map Prod.snd).sum := by
    rw [foldl_add_snd, sortByKeyDesc_map_snd_sum]
    exact Nat.zero_add _
  simp only [inferTypesForQuery]
  rw [hsum]

/-! ## Claim theorems -/

/-- C3, counterexample: `search` as the claim words it fails for the
empty-string type filter.  `""` is falsy in JS, so the filter is ignored:
the search returns an entry whose type does not equal the requested type. -/
theorem search_emptyType_counterexample :
    search ⟨[⟨"alpha", "p1", "module"⟩]⟩ "al" (some "") none = [⟨"alpha", "p1", "module"⟩] ∧
    qualifiesPerClaim "al" (some "") ⟨"alpha", "p1", "module"⟩ = false ∧
    search ⟨[⟨"alpha", "p1", "module"⟩]⟩ "al" (some "") none ≠
      ((⟨[⟨"alpha", "p1", "module"⟩]⟩ : DocIndex).entries.filter
        (qualifiesPerClaim "al" (some ""))).take ((none : Option Nat).getD CONFIG.defaultLimit) := by
  decide

/-- C3 (amended): `search` returns exactly the first `limit` qualifying
entries in index order, of length at most `limit`, where an entry
qualifies iff its lowercased name contains the lowercased query and the
type filter is absent, is the empty string (JS falsiness), or equals the
entry type lowercased. -/
theorem search_filter_take_spec (index : DocIndex) (query : String) (type : Option String)
    (limit : Option Nat) :
    search index query type limit =
      (index.entries.filter (qualifiesAmended query type)).take (limit.getD CONFIG.defaultLimit) ∧
    (search index query type limit).length ≤ limit.getD CONFIG.defaultLimit := by
  have h2 : List.filter (entryQualifies (strToLower query) (type.map strToLower)) index.entries =
      List.filter (qualifiesAmended query type) index.entries :=
    List.filter_congr (fun e _ => entryQualifies_eq_amended query type e)
  constructor
  · rw [search_eq_filter_take, h2]
  · rw [search_eq_filter_take, h2, List.length_take]
    exact min_le_left _ _

/-- C1, counterexample: with an empty-string type filter and no matching
results, the code trusts the falsy filter and skips the fallback, while
the claim as stated demands a fallback with type inference. -/
theorem searchWithFallback_emptyType_counterexample :
    searchWithFallback ⟨[⟨"alpha", "p1", "module"⟩]⟩ ⟨"3.14", 0, 0, [], []⟩
        "zzz" (some "") none ≠
      searchWithFallbackPerClaim ⟨[⟨"alpha", "p1", "module"⟩]⟩ ⟨"3.14", 0, 0, [], []⟩
        "zzz" (some "") none ∧
    (searchWithFallback ⟨[⟨"alpha", "p1", "module"⟩]⟩ ⟨"3.14", 0, 0, [], []⟩
        "zzz" (some "") none).fallbackUsed = false ∧
    (searchWithFallbackPerClaim ⟨[⟨"alpha", "p1", "module"⟩]⟩ ⟨"3.14", 0, 0, [], []⟩
        "zzz" (some "") none).fallbackUsed = true := by
  decide

/-- C2: `getSearchIndex` serves a valid readable cached search index from
the cache; otherwise it rebuilds one from the doc index obtained via
`getIndex`, writes it back, and returns it; it succeeds whenever
`getIndex` succeeds. -/
theorem getSearchIndex_cache_or_build (env : Env) (cache : CacheState) (version : String) :
    (∀ s : SearchIndex,
      isValid env.now cache (getSearchIndexPath version) CONFIG.indexTtlMs = true →
      readSIdx cache (getSearchIndexPath version) = some s →
      getSearchIndex env cache version = Except.ok (s, cache)) ∧
    (∀ (index : DocIndex) (cache1 : CacheState),
      (isValid env.now cache (getSearchIndexPath version) CONFIG.indexTtlMs = false ∨
        readSIdx cache (getSearchIndexPath version) = none) →
      getIndex env cache version = Except.ok (index, cache1) →
      getSearchIndex env cache version =
        Except.ok (createSearchIndex index version env.now,
          writeCache cache1 (getSearchIndexPath version)
            (CacheValue.sidx (createSearchIndex index version env.now)) env.now)) ∧
    ((∃ p, getIndex env cache version = Except.ok p) →
      ∃ q, getSearchIndex env cache version = Except.ok q) := by
  refine ⟨?_, ?_, ?_⟩
  · intro s hval hread
    simp only [getSearchIndex, hval, if_true, hread]
  · intro index cache1 hmiss hidx
    have hcached : (if isValid env.now cache (getSearchIndexPath version) CONFIG.indexTtlMs
        then readSIdx cache (getSearchIndexPath version) else none) = (none : Option SearchIndex) := by
      rcases hmiss with h | h
      · rw [if_neg (by simp [h])]
      · by_cases hv : isValid env.now cache (getSearchIndexPath version) CONFIG.indexTtlMs
        · rw [if_pos hv, h]
        · rw [if_neg hv]
    simp only [getSearchIndex, hcached, hidx]
  · rintro ⟨⟨index, cache1⟩, hidx⟩
    cases hcc : (if isValid env.now cache (getSearchIndexPath version) CONFIG.indexTtlMs
        then readSIdx cache (getSearchIndexPath version) else none) with
    | some s => exact ⟨(s, cache), by simp only [getSearchIndex, hcc]⟩
    | none =>
      exact ⟨(createSearchIndex index version env.now,
        writeCache cache1 (getSearchIndexPath version)
          (CacheValue.sidx (createSearchIndex index version env.now)) env.now),
        by simp only [getSearchIndex, hcc, hidx]⟩

/-- C2 witness: a cached search index is served unchanged; on an empty
cache, the index fetched by `getIndex` is turned into a search index,
cached and returned. -/
theorem getSearchIndex_cache_or_build_witness :
    getSearchIndex ⟨0, fun _ => Except.ok ⟨[]⟩, fun _ => Except.ok "m"⟩
        [⟨getSearchIndexPath "3.14", CacheValue.sidx ⟨"3.14", 0, 0, [], []⟩, 0⟩] "3.14" =
      Except.ok ((⟨"3.14", 0, 0, [], []⟩ : SearchIndex),
        [⟨getSearchIndexPath "3.14", CacheValue.sidx ⟨"3.14", 0, 0, [], []⟩, 0⟩]) ∧
    getSearchIndex ⟨0, fun _ => Except.ok ⟨[]⟩, fun _ => Except.ok "m"⟩ [] "3.14" =
      Except.ok (createSearchIndex ⟨[]⟩ "3.14" 0,
        writeCache (writeCache [] (getIndexPath "3.14") (CacheValue.idx ⟨[]⟩) 0)
          (getSearchIndexPath "3.14") (CacheValue.sidx (createSearchIndex ⟨[]⟩ "3.14" 0)) 0) ∧
    (∃ q, getSearchIndex ⟨0, fun _ => Except.ok ⟨[]⟩, fun _ => Except.ok "m"⟩ [] "3.14" =
      Except.ok q) :=
  ⟨(getSearchIndex_cache_or_build ⟨0, fun _ => Except.ok ⟨[]⟩, fun _ => Except.ok "m"⟩
      [⟨getSearchIndexPath "3.14", CacheValue.sidx ⟨"3.14", 0, 0, [], []⟩, 0⟩] "3.14").1
      ⟨"3.14", 0, 0, [], []⟩ (by decide) rfl,
   (getSearchIndex_cache_or_build ⟨0, fun _ => Except.ok ⟨[]⟩, fun _ => Except.ok "m"⟩
      [] "3.14").2.1 ⟨[]⟩
      (writeCache [] (getIndexPath "3.14") (CacheValue.idx ⟨[]⟩) 0)
      (Or.inl (by decide)) rfl,
   (getSearchIndex_cache_or_build ⟨0, fun _ => Except.ok ⟨[]⟩, fun _ => Except.ok "m"⟩
      [] "3.14").2.2
      ⟨(⟨[]⟩, writeCache [] (getIndexPath "3.14") (CacheValue.idx ⟨[]⟩) 0), rfl⟩⟩

/-- C5: the confidence of `inferTypesForQuery` is `0` when no keyword
mapping matches, and otherwise `min(100, n·10 + totalScore/100)` where
`totalScore` is the sum of the per-type accumulated scores; it always lies
in `[0, 100]`. -/
theorem inferTypes_confidence_spec (query : String) (searchIndex : SearchIndex) :
    (inferTypesForQuery query searchIndex).confidence =
      (if (matchingMappingsFor query searchIndex).length = 0 then 0
       else min 100 (((matchingMappingsFor query searchIndex).length : ℚ) * 10 +
         ((((typeScoresFor query searchIndex).map Prod.snd).sum : Nat) : ℚ) / 100)) ∧
    0 ≤ (inferTypesForQuery query searchIndex).confidence ∧
    (inferTypesForQuery query searchIndex).confidence ≤ 100 := by
  rw [inferTypesForQuery_confidence_eq]
  rcases Nat.eq_zero_or_pos (matchingMappingsFor query searchIndex).length with h0 | hpos
  · rw [if_neg (by omega), if_pos h0]
    refine ⟨rfl, le_refl 0, by norm_num⟩
  · rw [if_pos hpos, if_neg (by omega)]
    refine ⟨rfl, ?_, min_le_left _ _⟩
    refine le_min (by norm_num) ?_
    positivity

/-- C8: every keyword returned by `extractKeywords` has length at least 3
and is not a stop word; the returned list has no duplicates; and the
section-number prefix of `"10.20.30. Section Name"` is stripped exactly. -/
theorem extractKeywords_spec :
    (∀ s k : String, k ∈ extractKeywords s → 3 ≤ k.length ∧ k ∉ stopWords) ∧
    (∀ s : String, (extractKeywords s).Nodup) ∧
    extractKeywords "10.20.30. Section Name" = ["section", "name"] := by
  refine ⟨?_, extractKeywords_nodup, by decide⟩
  intro s k hk
  simp only [extractKeywords] at hk
  rw [mem_dedupFirstSeen_iff, List.mem_filter] at hk
  obtain ⟨hk1, hk2⟩ := hk
  rw [List.mem_filter] at hk1
  obtain ⟨_, hlen⟩ := hk1
  constructor
  · have := of_decide_eq_true hlen
    omega
  · simp only [Bool.not_eq_true'] at hk2
    intro hmem
    have hc : stopWords.contains k = true := List.elem_iff.mpr hmem
    rw [hk2] at hc
    cases hc

/-- C8 witness: a concrete keyword of a concrete input satisfies the
length and stop-list bounds. -/
theorem extractKeywords_spec_witness :
    3 ≤ ("section" : String).length ∧ ("section" : String) ∉ stopWords :=
  extractKeywords_spec.1 "10.20.30. Section Name" "section" (by decide)

/-- C9: results are not deduplicated by path outside the fallback branch:
two distinct entries sharing one path are both returned by `search` and by
`searchWithFallback` (without a filter, and with a filter matching both),
with `fallbackUsed = false`. -/
theorem search_no_dedup_non_fallback :
    search ⟨[⟨"query alpha", "shared", "module"⟩, ⟨"query beta", "shared", "module"⟩]⟩
        "query" none none =
      [⟨"query alpha", "shared", "module"⟩, ⟨"query beta", "shared", "module"⟩] ∧
    searchWithFallback
        ⟨[⟨"query alpha", "shared", "module"⟩, ⟨"query beta", "shared", "module"⟩]⟩
        ⟨"3.14", 0, 0, [], []⟩ "query" none none =
      ⟨[⟨"query alpha", "shared", "module"⟩, ⟨"query beta", "shared", "module"⟩], false, none⟩ ∧
    searchWithFallback
        ⟨[⟨"query alpha", "shared", "module"⟩, ⟨"query beta", "shared", "module"⟩]⟩
        ⟨"3.14", 0, 0, [], []⟩ "query" (some "module") none =
      ⟨[⟨"query alpha", "shared", "module"⟩, ⟨"query beta", "shared", "module"⟩], false, none⟩ ∧
    (⟨"query alpha", "shared", "module"⟩ : DocEntry) ≠ ⟨"query beta", "shared", "module"⟩ ∧
    (⟨"query alpha", "shared", "module"⟩ : DocEntry).path =
      (⟨"query beta", "shared", "module"⟩ : DocEntry).path := by
  decide

/-- C10: over a search index built by `createSearchIndex`, the inferred
confidence is either exactly 0 or at least 10 — values strictly between 0
and 10 cannot occur. -/
theorem inferTypes_confidence_dichotomy (index : DocIndex) (version : String) (now : Int)
    (query : String) :
    (inferTypesForQuery query (createSearchIndex index version now)).confidence = 0 ∨
    10 ≤ (inferTypesForQuery query (createSearchIndex index version now)).confidence := by
  rw [inferTypesForQuery_confidence_eq]
  rcases Nat.eq_zero_or_pos
    (matchingMappingsFor query (createSearchIndex index version now)).length with h0 | hpos
  · left
    rw [if_neg (by omega)]
  · right
    rw [if_pos hpos]
    refine le_min (by norm_num) ?_
    have h1 : (1 : ℚ) ≤
        ((matchingMappingsFor query (createSearchIndex index version now)).length : ℚ) := by
      exact_mod_cast hpos
    have h2 : (0 : ℚ) ≤
        ((((typeScoresFor query (createSearchIndex index version now)).map Prod.snd).sum :
          Nat) : ℚ) / 100 := by positivity
    linarith

/-- C6: `getDoc` serves a valid cached payload only when it carries an
anchor index, tagging it `fromCache = true`; a valid cached payload whose
anchor index is absent is treated as a miss: the document is refetched,
converted, persisted and returned tagged `fromCache = false`. -/
theorem getDoc_anchorIndex_guard (env : Env) (cache : CacheState) (version path : String) :
    (∀ c : StoredDoc,
      isValid env.now cache (getDocPath version (normalizePath path)) CONFIG.docTtlMs = true →
      readDoc cache (getDocPath version (normalizePath path)) = some c →
      c.anchorIndex.isSome = true →
      getDoc env cache version path =
        Except.ok
          ({ markdown := c.markdown, anchorIndex := c.anchorIndex,
             fetchedAt := c.fetchedAt, fromCache := true, path := normalizePath path },
           cache)) ∧
    (∀ (c : StoredDoc) (markdown : String),
      isValid env.now cache (getDocPath version (normalizePath path)) CONFIG.docTtlMs = true →
      readDoc cache (getDocPath version (normalizePath path)) = some c →
      c.anchorIndex = none →
      env.fetchMarkdown (normalizePath path) = Except.ok markdown →
      getDoc env cache version path =
        Except.ok
          ({ markdown := markdown, anchorIndex := some (convertedAnchorIndex markdown),
             fetchedAt := env.now, fromCache := false, path := normalizePath path },
           writeCache cache (getDocPath version (normalizePath path))
             (CacheValue.doc
               { markdown := markdown, anchorIndex := some (convertedAnchorIndex markdown),
                 fetchedAt := env.now })
             env.now)) := by
  constructor
  · intro c hval hread hanchor
    simp only [getDoc, hval, if_true, hread, hanchor]
  · intro c markdown hval hread hanchor hfetch
    simp only [getDoc, hval, if_true, hread, hanchor, Option.isSome_none, hfetch]
    simp

/-- C6 witness: a cached payload with an anchor index is served from
cache; a cached payload without one forces a refetch on a concrete
cache. -/
theorem getDoc_anchorIndex_guard_witness :
    getDoc ⟨0, fun _ => Except.ok ⟨[]⟩, fun _ => Except.ok "m"⟩
        [⟨getDocPath "3.14" "lib/a", CacheValue.doc ⟨"md", some ⟨[], 2⟩, 0⟩, 0⟩]
        "3.14" "lib/a.html" =
      Except.ok
        ({ markdown := "md", anchorIndex := some ⟨[], 2⟩, fetchedAt := 0,
           fromCache := true, path := "lib/a" },
         [⟨getDocPath "3.14" "lib/a", CacheValue.doc ⟨"md", some ⟨[], 2⟩, 0⟩, 0⟩]) ∧
    getDoc ⟨0, fun _ => Except.ok ⟨[]⟩, fun _ => Except.ok "m"⟩
        [⟨getDocPath "3.14" "lib/b", CacheValue.doc ⟨"md", none, 0⟩, 0⟩]
        "3.14" "lib/b" =
      Except.ok
        ({ markdown := "m", anchorIndex := some (convertedAnchorIndex "m"),
           fetchedAt := 0, fromCache := false, path := "lib/b" },
         writeCache [⟨getDocPath "3.14" "lib/b", CacheValue.doc ⟨"md", none, 0⟩, 0⟩]
           (getDocPath "3.14" "lib/b")
           (CacheValue.doc ⟨"m", some (convertedAnchorIndex "m"), 0⟩) 0) :=
  ⟨(getDoc_anchorIndex_guard ⟨0, fun _ => Except.ok ⟨[]⟩, fun _ => Except.ok "m"⟩
      [⟨getDocPath "3.14" "lib/a", CacheValue.doc ⟨"md", some ⟨[], 2⟩, 0⟩, 0⟩]
      "3.14" "lib/a.html").1 ⟨"md", some ⟨[], 2⟩, 0⟩ (by decide) (by decide) rfl,
   (getDoc_anchorIndex_guard ⟨0, fun _ => Except.ok ⟨[]⟩, fun _ => Except.ok "m"⟩
      [⟨getDocPath "3.14" "lib/b", CacheValue.doc ⟨"md", none, 0⟩, 0⟩]
      "3.14" "lib/b").2 ⟨"md", none, 0⟩ "m" (by decide) (by decide) rfl rfl⟩

/-- C7: the garbage collection scans every swept entry (top-level `.json`
files under the index TTL, per-version documents under the doc TTL),
deletes exactly the swept entries failing their validity check, counts
listing and deletion failures as errors without aborting; an empty cache
root yields `{scanned := 0, deleted := 0, errors := 0}`, and with one
expired and one fresh document exactly the expired one is deleted while
both are scanned. -/
theorem runGarbageCollection_spec :
    (∀ (now : Int) (fs : CacheFS) (indexTtlMs docTtlMs : Int),
      (runGarbageCollection now fs indexTtlMs docTtlMs).1.scanned =
        (sweptRootFiles fs).length + (sweptDocFiles fs).length ∧
      (runGarbageCollection now fs indexTtlMs docTtlMs).1.deleted =
        ((sweptRootFiles fs).filter (gcDeletes now indexTtlMs)).length +
          ((sweptDocFiles fs).filter (gcDeletes now docTtlMs)).length ∧
      (runGarbageCollection now fs indexTtlMs docTtlMs).1.errors =
        listingErrors fs + ((sweptRootFiles fs).filter (gcFails now indexTtlMs)).length +
          ((sweptDocFiles fs).filter (gcFails now docTtlMs)).length ∧
      (runGarbageCollection now fs indexTtlMs docTtlMs).2.rootFiles =
        (if fs.rootExists && fs.rootListable then
          fs.rootFiles.filter
            (fun f => !strEndsWith f.name ".json" || gcSurvives now indexTtlMs f)
        else fs.rootFiles) ∧
      (runGarbageCollection now fs indexTtlMs docTtlMs).2.versionDirs =
        (if fs.docsDirExists && fs.docsListable then
          fs.versionDirs.map (fun vd =>
            if vd.listable then { vd with docs := vd.docs.filter (gcSurvives now docTtlMs) }
            else vd)
        else fs.versionDirs)) ∧
    runGarbageCollection 100 ⟨true, true, [], false, true, []⟩ 10 10 =
      ({ scanned := 0, deleted := 0, errors := 0 }, ⟨true, true, [], false, true, []⟩) ∧
    runGarbageCollection 100
        ⟨true, true, [], true, true, [⟨"3.14", true, [⟨"old", 0, true⟩, ⟨"new", 95, true⟩]⟩]⟩
        1000 10 =
      ({ scanned := 2, deleted := 1, errors := 0 },
        ⟨true, true, [], true, true, [⟨"3.14", true, [⟨"new", 95, true⟩]⟩]⟩) := by
  refine ⟨?_, by decide, by decide⟩
  intro now fs indexTtlMs docTtlMs
  obtain ⟨rs, rd, re2, rr⟩ := gcRootStage_spec now indexTtlMs fs
  obtain ⟨ds, dd, de2, dr⟩ := gcDocsStage_spec now docTtlMs fs (gcRootStage now indexTtlMs fs).1
  refine ⟨?_, ?_, ?_, ?_, ?_⟩
  · show (gcDocsStage now docTtlMs fs (gcRootStage now indexTtlMs fs).1).1.scanned = _
    rw [ds, rs]
  · show (gcDocsStage now docTtlMs fs (gcRootStage now indexTtlMs fs).1).1.deleted = _
    rw [dd, rd]
  · show (gcDocsStage now docTtlMs fs (gcRootStage now indexTtlMs fs).1).1.errors = _
    rw [de2, re2]
    simp only [listingErrors]
    omega
  · show (gcRootStage now indexTtlMs fs).2 = _
    exact rr
  · show (gcDocsStage now docTtlMs fs (gcRootStage now indexTtlMs fs).1).2 = _
    exact dr

/-- C4: every keyword mapping retained by `createSearchIndex` lists only
types occurring at least twice for its keyword — except that a keyword
occurring under exactly one distinct type keeps that type even at count 1
— keeps at most 5 types, and is retained only with a non-empty type
list. -/
theorem createSearchIndex_mapping_invariant (index : DocIndex) (version : String) (now : Int) :
    ∀ m ∈ (createSearchIndex index version now).keywordMappings,
      (∀ ty ∈ m.types,
        2 ≤ keywordTypeCount index.entries m.keyword ty ∨
          (keywordTypesSeen index.entries m.keyword).length = 1) ∧
      m.types.length ≤ 5 ∧
      m.types ≠ [] ∧
      ((keywordTypesSeen index.entries m.keyword).length = 1 →
        m.types = keywordTypesSeen index.entries m.keyword) := by
  intro m hm
  have hm1 : m ∈ (keywordState index.entries).filterMap
      (fun x => mappingOfState x.1 x.2.1 x.2.2) := by
    have hb : (createSearchIndex index version now).keywordMappings =
        buildKeywordMappings index := rfl
    rw [hb, buildKeywordMappings] at hm
    exact (mem_sortByKeyDesc _ _ m).mp hm
  obtain ⟨x, hxmem, hxmap⟩ := List.mem_filterMap.mp hm1
  have htf : x.2.1 = freqOf (typesOf index.entries x.1) :=
    keywordState_mem_freq index.entries x hxmem
  simp only [mappingOfState] at hxmap
  by_cases hpos : 0 < ((((sortByKeyDesc Prod.snd x.2.1).filter
      (fun p => 2 ≤ p.2 || x.2.1.length == 1)).take 5).map Prod.fst).length
  · rw [if_pos hpos] at hxmap
    have hrec := Option.some.inj hxmap
    subst hrec
    dsimp only
    refine ⟨?_, ?_, ?_, ?_⟩
    · intro ty hty
      obtain ⟨pr, hpr, hfst⟩ := List.mem_map.mp hty
      have hpr2 : pr ∈ (sortByKeyDesc Prod.snd x.2.1).filter
          (fun p => 2 ≤ p.2 || x.2.1.length == 1) := List.take_subset 5 _ hpr
      obtain ⟨hprmem, hprp⟩ := List.mem_filter.mp hpr2
      have hprtf : pr ∈ x.2.1 := (mem_sortByKeyDesc Prod.snd x.2.1 pr).mp hprmem
      rw [htf, freqOf] at hprtf
      obtain ⟨t0, ht0, hpeq⟩ := List.mem_map.mp hprtf
      have ht0ty : t0 = ty := by rw [← hpeq] at hfst; exact hfst
      rw [Bool.or_eq_true] at hprp
      rcases hprp with h2 | h1
      · left
        have h2' : 2 ≤ pr.2 := of_decide_eq_true h2
        rw [← hpeq, ht0ty] at h2'
        exact h2'
      · right
        have hlen : x.2.1.length = 1 := by simpa using h1
        rw [htf, freqOf, List.length_map] at hlen
        exact hlen
    · rw [List.length_map, List.length_take]
      exact le_trans (min_le_left _ _) (le_refl 5)
    · exact List.length_pos.mp (by simpa using hpos)
    · intro hone
      obtain ⟨t0, ht0⟩ := List.length_eq_one.mp hone
      have hdedup : dedupFirstSeen (typesOf index.entries x.1) = [t0] := ht0
      have htf1 : x.2.1 = [(t0, countIn (typesOf index.entries x.1) t0)] := by
        rw [htf, freqOf, hdedup, List.map_singleton]
      rw [htf1, sortByKeyDesc_singleton]
      have hkeep : ((2 : Nat) ≤ countIn (typesOf index.entries x.1) t0 ||
          ([(t0, countIn (typesOf index.entries x.1) t0)] : FreqMap).length == 1) = true := by
        simp
      rw [List.filter_cons]
      simp only [hkeep, if_true]
      rw [show keywordTypesSeen index.entries x.1 = [t0] from ht0]
      simp [List.filter_nil]
  · rw [if_neg hpos] at hxmap
    cases hxmap

/-- C4 witness: a concrete one-entry index yields the mapping
`{keyword := "widget", types := ["module"], ...}` and the invariant holds
at it. -/
theorem createSearchIndex_mapping_invariant_witness :
    (2 ≤ keywordTypeCount [⟨"widget", "p1", "module"⟩] "widget" "module" ∨
      (keywordTypesSeen [⟨"widget", "p1", "module"⟩] "widget").length = 1) ∧
    (⟨"widget", ["module"], ["widget (module)"], 1⟩ : KeywordMapping).types.length ≤ 5 :=
  ⟨(createSearchIndex_mapping_invariant ⟨[⟨"widget", "p1", "module"⟩]⟩ "3.14" 0
      ⟨"widget", ["module"], ["widget (module)"], 1⟩ (by decide)).1 "module" (by decide),
   (createSearchIndex_mapping_invariant ⟨[⟨"widget", "p1", "module"⟩]⟩ "3.14" 0
      ⟨"widget", ["module"], ["widget (module)"], 1⟩ (by decide)).2.1⟩

end PyDocs
